import Mathlib

/-!
Verification of the blog-discovery and structured-extraction core of the
newsletter repository (`scripts/1-find-blog-posts.js` and `scripts/utils/ai.js`).

The JavaScript code is shallowly embedded: the external collaborators (the
Playwright request/browser session, `new URL`, `JSON.parse`, `JSON.stringify`,
the zod validator and the text-generation service) are oracles passed as
function parameters, while every algorithm of the repository itself
(sitemap recursion, `<loc>` scanning, pattern matching, robots parsing,
response-shape normalization, the retry loop) is translated into executable
Lean functions. JavaScript strings are modelled through their character lists;
`toLowerCase`, `endsWith`, `includes`, `trim`, `split` are re-implemented on
`List Char` with JavaScript semantics on the ASCII range.
-/

namespace Newsletter

/-! ## JavaScript string primitives -/

/-- JavaScript `s.toLowerCase()` (ASCII range; the repository only compares
ASCII patterns, paths and tags). -/
def jsToLower (s : String) : String :=
  ⟨s.data.map Char.toLower⟩

/-- JavaScript `s.split(c)[0]`: the prefix of `s` up to (excluding) the first
occurrence of `c`; the whole string when `c` does not occur. -/
def takeBefore (c : Char) (s : String) : String :=
  ⟨s.data.takeWhile (fun x => x ≠ c)⟩

/-- JavaScript `s.endsWith(suffix)`. -/
def jsEndsWith (s suffix : String) : Bool :=
  suffix.data.isSuffixOf s.data

/-- Substring containment on character lists (used to model
JavaScript `String.prototype.includes`). -/
def infixOfB (needle : List Char) : List Char → Bool
  | [] => needle.isEmpty
  | c :: rest => needle.isPrefixOf (c :: rest) || infixOfB needle rest

/-- JavaScript `s.includes(sub)` (substring containment). -/
def jsIncludes (s sub : String) : Bool :=
  infixOfB sub.data s.data

theorem infixOfB_iff_infix (needle : List Char) :
    ∀ hay : List Char, infixOfB needle hay = true ↔ needle <:+: hay := by
  intro hay
  induction hay with
  | nil =>
    simp only [infixOfB, List.isEmpty_iff]
    constructor
    · rintro rfl; exact List.infix_rfl
    · intro h; exact List.eq_nil_of_infix_nil h
  | cons c rest ih =>
    simp only [infixOfB, Bool.or_eq_true, List.isPrefixOf_iff_prefix, ih,
      List.infix_cons_iff]

/-- JavaScript `s.trim()` (whitespace stripped from both ends). -/
def jsTrim (s : String) : String :=
  ⟨(s.data.dropWhile Char.isWhitespace).reverse.dropWhile Char.isWhitespace |>.reverse⟩

/-- Deduplication keeping the first occurrence of each element, the behaviour
of JavaScript `Array.from(new Set(xs))`, written with an accumulator of
already-seen elements so that it evaluates structurally. -/
def dedupFirstAux (seen : List String) : List String → List String
  | [] => []
  | x :: xs => if x ∈ seen then dedupFirstAux seen xs else x :: dedupFirstAux (seen ++ [x]) xs

def dedupFirst (l : List String) : List String := dedupFirstAux [] l

theorem mem_dedupFirstAux (x : String) :
    ∀ (l seen : List String), x ∈ dedupFirstAux seen l ↔ x ∉ seen ∧ x ∈ l := by
  intro l
  induction l with
  | nil => intro seen; simp [dedupFirstAux]
  | cons a as ih =>
    intro seen
    by_cases ha : a ∈ seen
    · rw [dedupFirstAux, if_pos ha, ih]
      constructor
      · rintro ⟨hns, hmem⟩; exact ⟨hns, List.mem_cons_of_mem _ hmem⟩
      · rintro ⟨hns, hmem⟩
        rcases List.mem_cons.mp hmem with rfl | hmem
        · exact absurd ha hns
        · exact ⟨hns, hmem⟩
    · rw [dedupFirstAux, if_neg ha]
      simp only [List.mem_cons, ih, List.mem_append, List.mem_singleton]
      constructor
      · rintro (rfl | ⟨hns, hmem⟩)
        · exact ⟨ha, Or.inl rfl⟩
        · exact ⟨fun h => hns (Or.inl h), Or.inr hmem⟩
      · rintro ⟨hns, rfl | hmem⟩
        · exact Or.inl rfl
        · by_cases hxa : x = a
          · exact Or.inl hxa
          · exact Or.inr ⟨by simp [hns, hxa], hmem⟩

theorem mem_dedupFirst (x : String) (l : List String) : x ∈ dedupFirst l ↔ x ∈ l := by
  unfold dedupFirst
  rw [mem_dedupFirstAux]
  simp

theorem nodup_dedupFirstAux : ∀ (l seen : List String), (dedupFirstAux seen l).Nodup := by
  intro l
  induction l with
  | nil => intro seen; simp [dedupFirstAux]
  | cons a as ih =>
    intro seen
    by_cases ha : a ∈ seen
    · rw [dedupFirstAux, if_pos ha]; exact ih seen
    · rw [dedupFirstAux, if_neg ha]
      refine List.nodup_cons.mpr ⟨?_, ih _⟩
      intro hmem
      have := (mem_dedupFirstAux a as _).mp hmem
      simp at this

theorem nodup_dedupFirst (l : List String) : (dedupFirst l).Nodup :=
  nodup_dedupFirstAux l []

/-! ## PatternMatcher (`findMatches`, `1-find-blog-posts.js` lines 56-85)

`new URL(u)` is an oracle `parseUrl : String → Option ParsedUrl` returning the
parsed components on success and `none` when the constructor throws. Only the
`pathname` component is inspected by `findMatches`. -/

/-- The projection of a successfully constructed JavaScript `URL` object used
by the matcher. -/
structure ParsedUrl where
  pathname : String
deriving DecidableEq

/-- JavaScript `(p.pathname || '/')`: an empty pathname falls back to "/". -/
def effectivePath (p : ParsedUrl) : String :=
  if p.pathname = "" then "/" else p.pathname

/-- Whether one candidate string matches one pattern, following
`findMatches` exactly: parsed URLs compare the lower-cased pathname
(equality modulo a trailing slash under `rootOnly`, substring containment
otherwise); when URL parsing fails, the code falls back to a suffix test on
the href stripped of query and fragment (`rootOnly = true`) or a substring
test on the full href (`rootOnly = false`). -/
def matchesPattern (parseUrl : String → Option ParsedUrl)
    (u pat : String) (rootOnly : Bool) : Bool :=
  match parseUrl u with
  | some p =>
    let pathname := jsToLower (effectivePath p)
    let normPat := jsToLower pat
    if rootOnly then pathname == normPat || pathname == normPat ++ "/"
    else jsIncludes pathname normPat
  | none =>
    let normPat := jsToLower pat
    if rootOnly then
      let pth := jsToLower (takeBefore '#' (takeBefore '?' u))
      jsEndsWith pth normPat || jsEndsWith pth (normPat ++ "/")
    else jsIncludes (jsToLower u) normPat

/-- Insertion into the `found` set: JavaScript `Set.prototype.add` keeps
insertion order and ignores repeats. -/
def setAdd (l : List String) (x : String) : List String :=
  if x ∈ l then l else l ++ [x]

/-- `findMatches(urls, patterns, rootOnly)`: the double loop over candidate
URLs and patterns, accumulating matches into a `Set` returned as an array. -/
def findMatches (parseUrl : String → Option ParsedUrl)
    (urls patterns : List String) (rootOnly : Bool) : List String :=
  urls.foldl
    (fun found u =>
      patterns.foldl
        (fun fnd pat => if matchesPattern parseUrl u pat rootOnly then setAdd fnd u else fnd)
        found)
    []

theorem mem_setAdd (x y : String) (l : List String) :
    y ∈ setAdd l x ↔ y ∈ l ∨ y = x := by
  unfold setAdd
  by_cases h : x ∈ l
  · simp only [if_pos h]
    constructor
    · exact Or.inl
    · rintro (hy | rfl)
      · exact hy
      · exact h
  · simp [if_neg h]

theorem setAdd_idem (l : List String) (x : String) : setAdd (setAdd l x) x = setAdd l x := by
  unfold setAdd
  by_cases h : x ∈ l
  · simp [h]
  · simp [h]

theorem innerFold_eq (parseUrl : String → Option ParsedUrl) (u : String)
    (rootOnly : Bool) :
    ∀ (patterns : List String) (found : List String),
      patterns.foldl
        (fun fnd pat => if matchesPattern parseUrl u pat rootOnly then setAdd fnd u else fnd)
        found
      = if patterns.any (fun pat => matchesPattern parseUrl u pat rootOnly) then setAdd found u
        else found := by
  intro patterns
  induction patterns with
  | nil => intro found; simp
  | cons p ps ih =>
    intro found
    cases hp : matchesPattern parseUrl u p rootOnly with
    | true =>
      simp only [List.foldl_cons, List.any_cons, hp, if_true, Bool.true_or]
      rw [ih]
      cases hps : ps.any (fun pat => matchesPattern parseUrl u pat rootOnly) with
      | true => simp [setAdd_idem]
      | false => simp
    | false =>
      simp only [List.foldl_cons, List.any_cons, hp, if_false, Bool.false_or]
      exact ih found

theorem mem_findMatches_aux (parseUrl : String → Option ParsedUrl)
    (patterns : List String) (rootOnly : Bool) (x : String) :
    ∀ (urls : List String) (init : List String),
      (x ∈ urls.foldl
        (fun found u =>
          patterns.foldl
            (fun fnd pat => if matchesPattern parseUrl u pat rootOnly then setAdd fnd u else fnd)
            found)
        init)
      ↔ x ∈ init ∨ (x ∈ urls ∧ patterns.any (fun pat => matchesPattern parseUrl x pat rootOnly)) := by
  intro urls
  induction urls with
  | nil => intro init; simp
  | cons u us ih =>
    intro init
    simp only [List.foldl_cons]
    rw [innerFold_eq]
    cases hu : patterns.any (fun pat => matchesPattern parseUrl u pat rootOnly) with
    | true =>
      simp only [if_true]
      rw [ih, mem_setAdd]
      constructor
      · rintro ((hmem | rfl) | ⟨hmem, hmatch⟩)
        · exact Or.inl hmem
        · exact Or.inr ⟨List.mem_cons_self _ _, hu⟩
        · exact Or.inr ⟨List.mem_cons_of_mem _ hmem, hmatch⟩
      · rintro (hmem | ⟨hmem, hmatch⟩)
        · exact Or.inl (Or.inl hmem)
        · rcases List.mem_cons.mp hmem with rfl | hmem
          · exact Or.inl (Or.inr rfl)
          · exact Or.inr ⟨hmem, hmatch⟩
    | false =>
      rw [if_neg (by simp [hu])]
      rw [ih]
      constructor
      · rintro (hmem | ⟨hmem, hmatch⟩)
        · exact Or.inl hmem
        · exact Or.inr ⟨List.mem_cons_of_mem _ hmem, hmatch⟩
      · rintro (hmem | ⟨hmem, hmatch⟩)
        · exact Or.inl hmem
        · rcases List.mem_cons.mp hmem with rfl | hmem
          · rw [hu] at hmatch; exact absurd hmatch (by simp)
          · exact Or.inr ⟨hmem, hmatch⟩

/-- Membership characterization of `findMatches`: a string is returned exactly
when it is one of the candidate URLs and some pattern matches it. -/
theorem mem_findMatches (parseUrl : String → Option ParsedUrl)
    (urls patterns : List String) (rootOnly : Bool) (x : String) :
    x ∈ findMatches parseUrl urls patterns rootOnly
      ↔ x ∈ urls ∧ ∃ pat ∈ patterns, matchesPattern parseUrl x pat rootOnly := by
  unfold findMatches
  rw [mem_findMatches_aux]
  simp [List.any_eq_true]

theorem jsEndsWith_iff (s suffix : String) :
    jsEndsWith s suffix = true ↔ suffix.data <:+ s.data := by
  unfold jsEndsWith
  exact List.isSuffixOf_iff_suffix

theorem jsIncludes_iff (s sub : String) :
    jsIncludes s sub = true ↔ sub.data <:+: s.data := by
  unfold jsIncludes
  exact infixOfB_iff_infix _ _

/-- Unfolding of `matchesPattern` for a candidate whose URL parses. -/
theorem matchesPattern_parsed (parseUrl : String → Option ParsedUrl)
    (u pat : String) (p : ParsedUrl) (hp : parseUrl u = some p) :
    (matchesPattern parseUrl u pat true = true ↔
      jsToLower (effectivePath p) = jsToLower pat ∨
        jsToLower (effectivePath p) = jsToLower pat ++ "/")
    ∧ (matchesPattern parseUrl u pat false = true ↔
      (jsToLower pat).data <:+: (jsToLower (effectivePath p)).data) := by
  unfold matchesPattern
  rw [hp]
  constructor
  · simp
  · simp only [if_neg (by simp : ¬ (false = true))]
    exact jsIncludes_iff _ _

/-- Unfolding of `matchesPattern` for a candidate whose URL fails to parse. -/
theorem matchesPattern_unparsed (parseUrl : String → Option ParsedUrl)
    (u pat : String) (hp : parseUrl u = none) :
    (matchesPattern parseUrl u pat true = true ↔
      (jsToLower pat).data <:+ (jsToLower (takeBefore '#' (takeBefore '?' u))).data ∨
        (jsToLower pat ++ "/").data <:+ (jsToLower (takeBefore '#' (takeBefore '?' u))).data)
    ∧ (matchesPattern parseUrl u pat false = true ↔
      (jsToLower pat).data <:+: (jsToLower u).data) := by
  unfold matchesPattern
  rw [hp]
  constructor
  · simp [jsEndsWith_iff]
  · simp only [if_neg (by simp : ¬ (false = true))]
    exact jsIncludes_iff _ _

/-- The `new URL` oracle restricted to the two URLs of the worked example of
the specification; both parse, with pathnames "/blog/" and "/blog/post-1". -/
def exampleParse : String → Option ParsedUrl := fun s =>
  if s = "https://x.com/blog/" then some ⟨"/blog/"⟩
  else if s = "https://x.com/blog/post-1" then some ⟨"/blog/post-1"⟩
  else none

/-- Claim C4: for every URL whose path component parses, `findMatches` with
`rootOnly = true` includes the URL iff its lower-cased path equals some
lower-cased pattern or that pattern with one trailing slash appended, and with
`rootOnly = false` iff some lower-cased pattern occurs somewhere in the
lower-cased path; on the worked example with pattern "/blog", root-only
matching returns exactly the blog root and substring matching returns both
URLs. -/
theorem claim_C4 :
    (∀ (parseUrl : String → Option ParsedUrl) (urls patterns : List String)
        (u : String) (p : ParsedUrl), parseUrl u = some p → u ∈ urls →
      ((u ∈ findMatches parseUrl urls patterns true ↔
          ∃ pat ∈ patterns, jsToLower (effectivePath p) = jsToLower pat ∨
            jsToLower (effectivePath p) = jsToLower pat ++ "/")
        ∧ (u ∈ findMatches parseUrl urls patterns false ↔
          ∃ pat ∈ patterns, (jsToLower pat).data <:+: (jsToLower (effectivePath p)).data)))
    ∧ findMatches exampleParse ["https://x.com/blog/", "https://x.com/blog/post-1"]
        ["/blog"] true = ["https://x.com/blog/"]
    ∧ findMatches exampleParse ["https://x.com/blog/", "https://x.com/blog/post-1"]
        ["/blog"] false = ["https://x.com/blog/", "https://x.com/blog/post-1"] := by
  refine ⟨?_, by decide, by decide⟩
  intro parseUrl urls patterns u p hp hu
  constructor
  · rw [mem_findMatches]
    constructor
    · rintro ⟨-, pat, hpat, hmatch⟩
      exact ⟨pat, hpat, ((matchesPattern_parsed parseUrl u pat p hp).1).mp hmatch⟩
    · rintro ⟨pat, hpat, hmatch⟩
      exact ⟨hu, pat, hpat, ((matchesPattern_parsed parseUrl u pat p hp).1).mpr hmatch⟩
  · rw [mem_findMatches]
    constructor
    · rintro ⟨-, pat, hpat, hmatch⟩
      exact ⟨pat, hpat, ((matchesPattern_parsed parseUrl u pat p hp).2).mp hmatch⟩
    · rintro ⟨pat, hpat, hmatch⟩
      exact ⟨hu, pat, hpat, ((matchesPattern_parsed parseUrl u pat p hp).2).mpr hmatch⟩

/-- Witness for C4 at a concrete input: the blog root parses with pathname
"/blog/", and under root-only matching it is included because its path is the
pattern "/blog" with one trailing slash appended. -/
theorem claim_C4_witness :
    exampleParse "https://x.com/blog/" = some ⟨"/blog/"⟩
    ∧ ("https://x.com/blog/" ∈
        findMatches exampleParse ["https://x.com/blog/"] ["/blog"] true ↔
      ∃ pat ∈ ["/blog"], jsToLower (effectivePath ⟨"/blog/"⟩) = jsToLower pat ∨
        jsToLower (effectivePath ⟨"/blog/"⟩) = jsToLower pat ++ "/") :=
  ⟨by decide,
    ((claim_C4.1 exampleParse ["https://x.com/blog/"] ["/blog"]
      "https://x.com/blog/" ⟨"/blog/"⟩ (by decide) (by decide)).1)⟩

/-- The URL oracle for candidates that fail to parse (models `new URL`
throwing on every input fed to it). -/
def noParse : String → Option ParsedUrl := fun _ => none

/-- Counterexample to claim C9 as stated: for the unparseable candidate
"x?/blog" and pattern "/blog" with `rootOnly = false`, `findMatches` keeps the
candidate (the full lower-cased href contains the pattern), yet the stripped
href "x" — query and fragment dropped — does not contain the pattern, so
membership is not the claimed substring comparison on the stripped href. -/
theorem claim_C9_counterexample :
    "x?/blog" ∈ findMatches noParse ["x?/blog"] ["/blog"] false
    ∧ jsIncludes (jsToLower (takeBefore '#' (takeBefore '?' "x?/blog"))) (jsToLower "/blog")
        = false := by
  constructor
  · decide
  · decide

/-- Claim C9 amended: when URL parsing fails the candidate is not discarded;
under `rootOnly = true` the stripped (query and fragment dropped) lower-cased
href is compared by suffix against the pattern with an optional trailing
slash, while under `rootOnly = false` the substring comparison is made
against the full lower-cased href, not the stripped one. -/
theorem claim_C9 :
    ∀ (parseUrl : String → Option ParsedUrl) (urls patterns : List String)
      (u : String), parseUrl u = none → u ∈ urls →
      ((u ∈ findMatches parseUrl urls patterns true ↔
          ∃ pat ∈ patterns,
            (jsToLower pat).data <:+ (jsToLower (takeBefore '#' (takeBefore '?' u))).data ∨
              (jsToLower pat ++ "/").data <:+
                (jsToLower (takeBefore '#' (takeBefore '?' u))).data)
        ∧ (u ∈ findMatches parseUrl urls patterns false ↔
          ∃ pat ∈ patterns, (jsToLower pat).data <:+: (jsToLower u).data)) := by
  intro parseUrl urls patterns u hp hu
  constructor
  · rw [mem_findMatches]
    constructor
    · rintro ⟨-, pat, hpat, hmatch⟩
      exact ⟨pat, hpat, ((matchesPattern_unparsed parseUrl u pat hp).1).mp hmatch⟩
    · rintro ⟨pat, hpat, hmatch⟩
      exact ⟨hu, pat, hpat, ((matchesPattern_unparsed parseUrl u pat hp).1).mpr hmatch⟩
  · rw [mem_findMatches]
    constructor
    · rintro ⟨-, pat, hpat, hmatch⟩
      exact ⟨pat, hpat, ((matchesPattern_unparsed parseUrl u pat hp).2).mp hmatch⟩
    · rintro ⟨pat, hpat, hmatch⟩
      exact ⟨hu, pat, hpat, ((matchesPattern_unparsed parseUrl u pat hp).2).mpr hmatch⟩

/-- Witness for the amended C9 at the concrete counterexample input: the
unparseable candidate is kept under substring matching because the full
lower-cased href contains the pattern. -/
theorem claim_C9_witness :
    noParse "x?/blog" = none
    ∧ ("x?/blog" ∈ findMatches noParse ["x?/blog"] ["/blog"] false ↔
        ∃ pat ∈ ["/blog"], (jsToLower pat).data <:+: (jsToLower "x?/blog").data) :=
  ⟨rfl, (claim_C9 noParse ["x?/blog"] ["/blog"] "x?/blog" rfl (by decide)).2⟩

/-! ## JSON extraction from model output (`utils/ai.js` lines 3-8)

`safeParseJsonFromText` matches the regular expression
`/\x7b[\s\S]*\x7d|\[[\s\S]*\]/` against the text and feeds the match (or, when
there is no match, the whole text) to `JSON.parse`, which is the oracle
`jsonParse`. JavaScript regex semantics: alternatives are tried left to right
at each successive start position; `[\s\S]*` is greedy, so a successful
alternative extends to the last corresponding closing delimiter in the
remainder of the text. -/

/-- The prefix of `l` up to and including the last occurrence of `c`. -/
def takeToLast (c : Char) (l : List Char) : List Char :=
  (l.reverse.dropWhile (fun x => x ≠ c)).reverse

/-- First match of `/\x7b[\s\S]*\x7d|\[[\s\S]*\]/` on a character list: the
earliest position holding `{` with a later `}` (or `[` with a later `]`),
extended greedily to the last such closing delimiter. -/
def regexScan : List Char → Option (List Char)
  | [] => none
  | c :: rest =>
    if c = '{' ∧ '}' ∈ rest then some (c :: takeToLast '}' rest)
    else if c = '[' ∧ ']' ∈ rest then some (c :: takeToLast ']' rest)
    else regexScan rest

/-- The candidate string handed to `JSON.parse`: the regex match when there is
one, otherwise the whole text. -/
def extractJsonCandidate (text : String) : String :=
  match regexScan text.data with
  | some m => ⟨m⟩
  | none => text

/-- `safeParseJsonFromText`: empty text short-circuits to `null`; otherwise
the candidate substring is parsed, a parse failure yielding `null`. -/
def safeParseJsonFromText {J : Type} (jsonParse : String → Option J)
    (text : String) : Option J :=
  if text = "" then none
  else jsonParse (extractJsonCandidate text)

/-- Modelled from the spec: the shortest balanced span for one delimiter pair,
starting at nesting depth `d` (tolerant scan counting delimiters only). -/
def balancedFrom (opener closer : Char) : Nat → List Char → Option (List Char)
  | _, [] => none
  | d, x :: xs =>
    if x = closer then
      if d = 1 then some [x]
      else (balancedFrom opener closer (d - 1) xs).map (fun t => x :: t)
    else if x = opener then (balancedFrom opener closer (d + 1) xs).map (fun t => x :: t)
    else (balancedFrom opener closer d xs).map (fun t => x :: t)

/-- Modelled from the spec: "the first balanced JSON object or array substring
of the text" — from the first opening delimiter, the shortest span balancing
it. -/
def specFirstBalancedJson : List Char → Option (List Char)
  | [] => none
  | c :: rest =>
    if c = '{' then (balancedFrom '{' '}' 1 rest).map (fun t => c :: t)
    else if c = '[' then (balancedFrom '[' ']' 1 rest).map (fun t => c :: t)
    else specFirstBalancedJson rest

/-- String-level form of the spec's first-balanced-substring extraction. -/
def specFirstBalancedJsonStr (s : String) : Option String :=
  (specFirstBalancedJson s.data).map (fun m => ⟨m⟩)

/-- Counterexample to claim C6 as stated: on the text `{"a":1} }` the first
balanced JSON substring is `{"a":1}`, but the candidate handed to the parser
is the whole text `{"a":1} }` (the greedy regex runs to the last `}`), so
characters after the first complete JSON value do affect what is parsed. -/
theorem claim_C6_counterexample :
    specFirstBalancedJsonStr "\x7b\"a\":1\x7d \x7d" = some "\x7b\"a\":1\x7d"
    ∧ extractJsonCandidate "\x7b\"a\":1\x7d \x7d" = "\x7b\"a\":1\x7d \x7d"
    ∧ ("\x7b\"a\":1\x7d" : String) ≠ "\x7b\"a\":1\x7d \x7d" := by
  refine ⟨by decide, by decide, by decide⟩

theorem takeToLast_append (c : Char) (as bs : List Char) (hb : c ∉ bs) :
    takeToLast c (as ++ bs) = takeToLast c as := by
  unfold takeToLast
  rw [List.reverse_append, List.dropWhile_append]
  have hnil : bs.reverse.dropWhile (fun x => x ≠ c) = [] := by
    rw [List.dropWhile_eq_nil_iff]
    intro x hx
    simp only [ne_eq, decide_eq_true_eq]
    intro hxc
    exact hb (by simpa [hxc] using (List.mem_reverse.mp hx))
  rw [hnil]
  simp

theorem regexScan_append (bs : List Char)
    (hb : ∀ x ∈ bs, x ≠ '}' ∧ x ≠ ']') :
    ∀ (as : List Char) (m : List Char), regexScan as = some m →
      regexScan (as ++ bs) = some m := by
  have hbc : '}' ∉ bs := fun h => ((hb _ h).1) rfl
  have hbb : ']' ∉ bs := fun h => ((hb _ h).2) rfl
  intro as
  induction as with
  | nil => intro m h; simp [regexScan] at h
  | cons c rest ih =>
    intro m h
    by_cases h1 : c = '{' ∧ '}' ∈ rest
    · rw [regexScan, if_pos h1] at h
      rw [List.cons_append, regexScan,
        if_pos ⟨h1.1, List.mem_append.mpr (Or.inl h1.2)⟩,
        takeToLast_append _ _ _ hbc]
      exact h
    · by_cases h2 : c = '[' ∧ ']' ∈ rest
      · rw [regexScan, if_neg h1, if_pos h2] at h
        have h1' : ¬ (c = '{' ∧ '}' ∈ rest ++ bs) := by
          rintro ⟨rfl, hmem⟩
          rcases List.mem_append.mp hmem with hmem | hmem
          · exact h1 ⟨rfl, hmem⟩
          · exact hbc hmem
        rw [List.cons_append, regexScan, if_neg h1',
          if_pos ⟨h2.1, List.mem_append.mpr (Or.inl h2.2)⟩,
          takeToLast_append _ _ _ hbb]
        exact h
      · rw [regexScan, if_neg h1, if_neg h2] at h
        have h1' : ¬ (c = '{' ∧ '}' ∈ rest ++ bs) := by
          rintro ⟨rfl, hmem⟩
          rcases List.mem_append.mp hmem with hmem | hmem
          · exact h1 ⟨rfl, hmem⟩
          · exact hbc hmem
        have h2' : ¬ (c = '[' ∧ ']' ∈ rest ++ bs) := by
          rintro ⟨rfl, hmem⟩
          rcases List.mem_append.mp hmem with hmem | hmem
          · exact h2 ⟨rfl, hmem⟩
          · exact hbb hmem
        rw [List.cons_append, regexScan, if_neg h1', if_neg h2']
        exact ih m h

/-- Claim C6 amended: the candidate handed to the parser is the greedy regex
match — from the first viable opening delimiter to the LAST corresponding
closing delimiter — so text after the first complete JSON value can change
what is parsed; what cannot change a successful match is appended text free of
`\x7d` and `]`. -/
theorem claim_C6 :
    ∀ (s t : String) (m : List Char),
      regexScan s.data = some m →
      (∀ c ∈ t.data, c ≠ '}' ∧ c ≠ ']') →
      extractJsonCandidate s = ⟨m⟩ ∧ extractJsonCandidate (s ++ t) = ⟨m⟩ := by
  intro s t m hscan hfree
  have happ := regexScan_append t.data hfree s.data m hscan
  constructor
  · unfold extractJsonCandidate
    rw [hscan]
  · unfold extractJsonCandidate
    have hdata : (s ++ t).data = s.data ++ t.data := String.data_append s t
    rw [hdata, happ]

/-- Witness for the amended C6 at a concrete input: appending "x" (no closing
delimiter) to `{"a":1}` leaves the candidate unchanged. -/
theorem claim_C6_witness :
    regexScan ("\x7b\"a\":1\x7d" : String).data = some ("\x7b\"a\":1\x7d" : String).data
    ∧ extractJsonCandidate "\x7b\"a\":1\x7d" = "\x7b\"a\":1\x7d"
    ∧ extractJsonCandidate ("\x7b\"a\":1\x7d" ++ "x") = "\x7b\"a\":1\x7d" :=
  ⟨by decide,
    (claim_C6 "\x7b\"a\":1\x7d" "x" ("\x7b\"a\":1\x7d" : String).data (by decide)
      (by decide)).1,
    (claim_C6 "\x7b\"a\":1\x7d" "x" ("\x7b\"a\":1\x7d" : String).data (by decide)
      (by decide)).2⟩

/-! ## StructuredExtractionClient (`utils/ai.js` lines 10-143)

The text-generation service, `JSON.parse`, `JSON.stringify` (inside
`shortSerialize`) and the zod validator are oracles. A service response is
modelled by the properties the code inspects: a string-valued `output_text`,
an `output` array whose first item is either an object with a `content` array,
a plain string, or something else, and the two locations where a `usage`
object may live. The retry loop of `p-retry` is value-level: backoff delays do
not affect the returned value. -/

/-- A raw `usage` object: each field is present with an integer value or
absent/non-numeric (`none`). -/
structure RawUsage where
  input_tokens : Option Int
  prompt_tokens : Option Int
  output_tokens : Option Int
  completion_tokens : Option Int
  total_tokens : Option Int
deriving DecidableEq

/-- The normalized usage record built by `extractUsageFromResp`. -/
structure NormUsage where
  input_tokens : Int
  output_tokens : Int
  total_tokens : Int
deriving DecidableEq

/-- An entry of the `content` array of the first output item: an object whose
`text` property is the given string when present, or a plain string. -/
inductive RespBlock
  | obj (text : Option String)
  | str (s : String)
deriving DecidableEq

/-- JavaScript `c.text || (typeof c === 'string' ? c : '')`: a truthy `text`
property wins, a plain string stands for itself, anything else contributes the
empty string (an absent or empty `text` is falsy). -/
def blockText : RespBlock → String
  | .obj t => t.getD ""
  | .str s => s

/-- The first item of the `output` array as the code discriminates it. -/
inductive OutItem
  | withContent (blocks : List RespBlock)
  | plainStr (s : String)
  | other
deriving DecidableEq

/-- The projection of a service response inspected by `requestStructured`. -/
structure ModelResp where
  output_text : Option String
  output : Option (List OutItem)
  usage : Option RawUsage
  responseBodyUsage : Option RawUsage
deriving DecidableEq

/-- JavaScript `Array.prototype.join(sep)`. -/
def joinSep (sep : String) : List String → String
  | [] => ""
  | [x] => x
  | x :: y :: xs => x ++ sep ++ joinSep sep (y :: xs)

/-- `extractUsageFromResp` (`utils/ai.js` lines 17-30): the raw usage object
is taken from `resp.usage` or `resp._response.body.usage`; `input_tokens`
falls back to `prompt_tokens` then 0, `output_tokens` to `completion_tokens`
then 0, and a missing numeric `total_tokens` is replaced by the sum. -/
def extractUsageFromResp : Option ModelResp → Option NormUsage
  | none => none
  | some r =>
    match (match r.usage with | some u => some u | none => r.responseBodyUsage) with
    | none => none
    | some raw =>
      some ⟨(match raw.input_tokens with
              | some v => v
              | none => match raw.prompt_tokens with | some v => v | none => 0),
            (match raw.output_tokens with
              | some v => v
              | none => match raw.completion_tokens with | some v => v | none => 0),
            (match raw.total_tokens with
              | some v => v
              | none =>
                (match raw.input_tokens with
                  | some v => v
                  | none => match raw.prompt_tokens with | some v => v | none => 0) +
                (match raw.output_tokens with
                  | some v => v
                  | none => match raw.completion_tokens with | some v => v | none => 0))⟩

/-- Response-shape normalization (`utils/ai.js` lines 70-80): a trimmed
nonempty `output_text` wins; otherwise a nonempty `output` array is probed —
a first item with a `content` array is joined block-wise with newlines and
trimmed, a plain-string first item is taken as is (untrimmed); every other
shape leaves the text unrecoverable. -/
def assembleOutText (r : ModelResp) : Option String :=
  match (match r.output_text with
          | some t => if jsTrim t = "" then none else some (jsTrim t)
          | none => none) with
  | some t => some t
  | none =>
    match r.output with
    | some (first :: _) =>
      match first with
      | .withContent blocks => some (jsTrim (joinSep "\n" (blocks.map blockText)))
      | .plainStr s => some s
      | .other => none
    | _ => none

/-- An exception thrown by the underlying SDK call, as the catch block reads
it: its message and the string serialized for diagnostics. -/
structure SdkErr where
  message : String
  rawRepr : String
deriving DecidableEq

/-- The `RetryableError` payload. -/
structure RErr (I : Type) where
  code : String
  message : String
  raw : Option String
  usage : Option NormUsage
  issues : Option (List I)

/-- The record returned by a successful attempt. -/
structure SuccessRec (D : Type) where
  data : D
  raw : String
  usage : Option NormUsage

/-- JavaScript `s || null` on a string. -/
def optStr (s : String) : Option String := if s = "" then none else some s

/-- One attempt of `requestStructured` (`attemptFn`, `utils/ai.js` lines
58-111): SDK failure wraps into a retryable `request_failed`; unrecoverable
text raises `parse_failed`; an unparseable JSON candidate raises
`parse_failed`; schema rejection raises `validation_failed` carrying the
issue list; otherwise the attempt succeeds with data, raw text and usage. -/
def runAttempt {J D I : Type} (jsonParse : String → Option J)
    (validate : J → Except (List I) D) (serialize : ModelResp → String) :
    Except SdkErr ModelResp → Except (RErr I) (SuccessRec D)
  | .error e => .error ⟨"request_failed", e.message, optStr e.rawRepr, none, none⟩
  | .ok resp =>
    let usage := extractUsageFromResp (some resp)
    match assembleOutText resp with
    | none => .error ⟨"parse_failed", "no output_text returned by model",
        optStr (serialize resp), usage, none⟩
    | some t =>
      if t = "" then
        .error ⟨"parse_failed", "no output_text returned by model",
          optStr (serialize resp), usage, none⟩
      else
        match safeParseJsonFromText jsonParse t with
        | none =>
          .error ⟨"parse_failed", "could not parse JSON from model output",
            optStr (if serialize resp = "" then t else serialize resp), usage, none⟩
        | some j =>
          match validate j with
          | .ok d => .ok ⟨d, t, usage⟩
          | .error issues => .error ⟨"validation_failed", "zod validation failed",
              optStr t, usage, some issues⟩

/-- The `p-retry` loop on values: `r` further attempts are allowed after the
current one; the first success wins and the last error is rethrown when
attempts are exhausted. -/
def runRetries {E S : Type} (attemptAt : Nat → Except E S) : Nat → Nat → Except E S
  | 0, idx => attemptAt idx
  | r + 1, idx =>
    match attemptAt idx with
    | .ok s => .ok s
    | .error _ => runRetries attemptAt r (idx + 1)

/-- The terminal value of `requestStructured`: the success record or the
failure object assembled in the final catch (never a thrown exception). -/
inductive RequestOutcome (D I : Type)
  | success (data : D) (raw : String) (usage : Option NormUsage)
  | failure (error : String) (message : String) (raw : Option String)
      (usage : Option NormUsage) (issues : Option (List I))

/-- JavaScript `opts.maxAttempts || 3`: an absent or zero attempt budget
falls back to 3. -/
def effMaxAttempts (maxAttemptsOpt : Option Nat) : Nat :=
  match maxAttemptsOpt with
  | none => 3
  | some 0 => 3
  | some (k + 1) => k + 1

/-- `requestStructured` (`utils/ai.js` lines 10-143): run up to
`max(0, maxAttempts - 1) + 1` attempts; a success returns the data with raw
text and usage; exhaustion returns the failure object built from the last
`RetryableError` (its code, message, raw snapshot, usage and issue list). -/
def requestStructured {J D I : Type} (call : Nat → Except SdkErr ModelResp)
    (jsonParse : String → Option J) (validate : J → Except (List I) D)
    (serialize : ModelResp → String) (maxAttemptsOpt : Option Nat) :
    RequestOutcome D I :=
  match runRetries (fun i => runAttempt jsonParse validate serialize (call i))
      (effMaxAttempts maxAttemptsOpt - 1) 1 with
  | .ok s => .success s.data s.raw s.usage
  | .error e => .failure (if e.code = "" then "request_failed" else e.code)
      e.message e.raw e.usage e.issues

theorem one_le_effMaxAttempts (o : Option Nat) : 1 ≤ effMaxAttempts o := by
  cases o with
  | none => simp [effMaxAttempts]
  | some k =>
    cases k with
    | zero => simp [effMaxAttempts]
    | succ k => simp [effMaxAttempts]

theorem runRetries_all_error {E S : Type} (attemptAt : Nat → Except E S)
    (err : Nat → E) :
    ∀ (r idx : Nat), (∀ i, idx ≤ i → i ≤ idx + r → attemptAt i = .error (err i)) →
      runRetries attemptAt r idx = .error (err (idx + r)) := by
  intro r
  induction r with
  | zero =>
    intro idx h
    rw [runRetries, h idx (le_refl idx) (Nat.le_add_right idx 0)]
    rfl
  | succ r ih =>
    intro idx h
    rw [runRetries, h idx (le_refl idx) (Nat.le_add_right idx (r + 1))]
    rw [ih (idx + 1) (fun i h1 h2 => h i (by omega) (by omega))]
    have heq : idx + 1 + r = idx + (r + 1) := by omega
    rw [heq]

/-- Claim C10: the normalized usage takes `input_tokens` from the numeric
`input_tokens` field, else `prompt_tokens`, else 0; `output_tokens` from
`output_tokens`, else `completion_tokens`, else 0; and when the raw usage has
no numeric `total_tokens`, the reported total is the sum of the two. -/
theorem claim_C10 :
    ∀ (r : ModelResp) (raw : RawUsage), r.usage = some raw →
      ∃ u : NormUsage, extractUsageFromResp (some r) = some u
        ∧ (∀ v, raw.input_tokens = some v → u.input_tokens = v)
        ∧ (raw.input_tokens = none → ∀ v, raw.prompt_tokens = some v → u.input_tokens = v)
        ∧ (raw.input_tokens = none → raw.prompt_tokens = none → u.input_tokens = 0)
        ∧ (∀ v, raw.output_tokens = some v → u.output_tokens = v)
        ∧ (raw.output_tokens = none → ∀ v, raw.completion_tokens = some v → u.output_tokens = v)
        ∧ (raw.output_tokens = none → raw.completion_tokens = none → u.output_tokens = 0)
        ∧ (∀ v, raw.total_tokens = some v → u.total_tokens = v)
        ∧ (raw.total_tokens = none → u.total_tokens = u.input_tokens + u.output_tokens) := by
  intro r raw h
  simp only [extractUsageFromResp]
  rw [h]
  refine ⟨_, rfl, ?_, ?_, ?_, ?_, ?_, ?_, ?_, ?_⟩
  · intro v hv; simp [hv]
  · intro h1 v hv; simp [h1, hv]
  · intro h1 h2; simp [h1, h2]
  · intro v hv; simp [hv]
  · intro h1 v hv; simp [h1, hv]
  · intro h1 h2; simp [h1, h2]
  · intro v hv; simp [hv]
  · intro h1; simp [h1]

/-- Witness for C10 at a concrete response: a usage object carrying only
`prompt_tokens = 7` and `completion_tokens = 5` normalizes to input 7,
output 5, and, lacking a numeric `total_tokens`, a total of 12. -/
theorem claim_C10_witness :
    (ModelResp.mk none none (some ⟨none, some 7, none, some 5, none⟩) none).usage
        = some ⟨none, some 7, none, some 5, none⟩
    ∧ ∃ u : NormUsage,
        extractUsageFromResp (some (ModelResp.mk none none
          (some ⟨none, some 7, none, some 5, none⟩) none)) = some u
        ∧ u.input_tokens = 7 ∧ u.output_tokens = 5
        ∧ u.total_tokens = u.input_tokens + u.output_tokens := by
  refine ⟨rfl, ?_⟩
  obtain ⟨u, hu, -, h2, -, -, h5, -, -, h8⟩ :=
    claim_C10 (ModelResp.mk none none (some ⟨none, some 7, none, some 5, none⟩) none)
      ⟨none, some 7, none, some 5, none⟩ rfl
  exact ⟨u, hu, h2 rfl 7 rfl, h5 rfl 5 rfl, h8 rfl⟩

/-- Claim C2: when every attempt produces output text whose extracted JSON
parses but fails schema validation with a non-empty issue list, exhausting the
attempt budget returns the typed failure record with `errorKind
"validation_failed"`, the raw text, the usage and the non-empty issue list of
the last attempt; the embedding is a total function, so no exception reaches
the caller. -/
theorem claim_C2 {J D I : Type} :
    ∀ (call : Nat → Except SdkErr ModelResp) (jsonParse : String → Option J)
      (validate : J → Except (List I) D) (serialize : ModelResp → String)
      (maxAttemptsOpt : Option Nat)
      (resp : Nat → ModelResp) (txt : Nat → String) (jv : Nat → J) (iss : Nat → List I),
      (∀ i, 1 ≤ i → i ≤ effMaxAttempts maxAttemptsOpt →
        call i = .ok (resp i)
        ∧ assembleOutText (resp i) = some (txt i)
        ∧ txt i ≠ ""
        ∧ safeParseJsonFromText jsonParse (txt i) = some (jv i)
        ∧ validate (jv i) = .error (iss i)
        ∧ iss i ≠ []) →
      requestStructured call jsonParse validate serialize maxAttemptsOpt
        = .failure "validation_failed" "zod validation failed"
            (some (txt (effMaxAttempts maxAttemptsOpt)))
            (extractUsageFromResp (some (resp (effMaxAttempts maxAttemptsOpt))))
            (some (iss (effMaxAttempts maxAttemptsOpt)))
      ∧ iss (effMaxAttempts maxAttemptsOpt) ≠ [] := by
  intro call jsonParse validate serialize maxAttemptsOpt resp txt jv iss h
  have hA := one_le_effMaxAttempts maxAttemptsOpt
  have hattempt : ∀ i, 1 ≤ i → i ≤ effMaxAttempts maxAttemptsOpt →
      runAttempt jsonParse validate serialize (call i)
        = .error ⟨"validation_failed", "zod validation failed", optStr (txt i),
            extractUsageFromResp (some (resp i)), some (iss i)⟩ := by
    intro i h1 h2
    obtain ⟨hc, ht, hne, hj, hv, -⟩ := h i h1 h2
    rw [hc]
    simp only [runAttempt, ht, hj, hv, if_neg hne]
  have hrun := runRetries_all_error
    (fun i => runAttempt jsonParse validate serialize (call i))
    (fun i => ⟨"validation_failed", "zod validation failed", optStr (txt i),
      extractUsageFromResp (some (resp i)), some (iss i)⟩)
    (effMaxAttempts maxAttemptsOpt - 1) 1
    (fun i h1 h2 => hattempt i h1 (by omega))
  have hidx : 1 + (effMaxAttempts maxAttemptsOpt - 1) = effMaxAttempts maxAttemptsOpt := by
    omega
  rw [hidx] at hrun
  constructor
  · unfold requestStructured
    rw [hrun]
    have hne : txt (effMaxAttempts maxAttemptsOpt) ≠ "" :=
      (h _ hA (le_refl _)).2.2.1
    simp only [optStr, if_neg hne]
    rw [if_neg (by decide : ¬ ("validation_failed" = ""))]
  · exact (h _ hA (le_refl _)).2.2.2.2.2

/-- Witness for C2: a two-attempt budget where every attempt yields the text
"[1]" parsing to a JSON value the validator rejects with the single issue
"invalid" ends in the typed `validation_failed` failure carrying that issue
list. -/
theorem claim_C2_witness :
    requestStructured (J := Nat) (D := Nat) (I := String)
        (fun _ => .ok (ModelResp.mk (some "[1]") none none none))
        (fun _ => some 0) (fun _ => .error ["invalid"]) (fun _ => "resp") (some 2)
      = .failure "validation_failed" "zod validation failed" (some "[1]") none
          (some ["invalid"])
    ∧ (["invalid"] : List String) ≠ [] := by
  have hassemble : assembleOutText (ModelResp.mk (some "[1]") none none none)
      = some "[1]" := by decide
  have hne : ("[1]" : String) ≠ "" := by decide
  have hparse : safeParseJsonFromText (J := Nat) (fun _ => some 0) "[1]" = some 0 := by
    decide
  have hiss : (["invalid"] : List String) ≠ [] := by decide
  have h := claim_C2 (J := Nat) (D := Nat) (I := String)
    (fun _ => .ok (ModelResp.mk (some "[1]") none none none))
    (fun _ => some 0) (fun _ => .error ["invalid"]) (fun _ => "resp") (some 2)
    (fun _ => ModelResp.mk (some "[1]") none none none)
    (fun _ => "[1]") (fun _ => 0) (fun _ => ["invalid"])
    (fun i h1 h2 => ⟨rfl, hassemble, hne, hparse, rfl, hiss⟩)
  exact ⟨h.1, hiss⟩

/-! ## SitemapResolver (`1-find-blog-posts.js` lines 29-147, 168-214)

The Playwright request context is the oracle `f : String → Option String`
(`fetchWithApi`: `none` for a failed or non-OK fetch, the decompressed body
otherwise) and `new URL(s).href` is the oracle `nf : String → Option String`
(`none` when the constructor throws). The recursion of `fetchSitemapUrls` is
bounded by the depth check `depth > 6`; the embedding carries the equivalent
fuel `7 - depth` so that the function is structurally recursive, and
`fetchSitemapUrls_eq` proves the source-shaped unfolding equation. -/

/-- Case-insensitive prefix test against an already-lower-cased pattern
(models the `i` flag of the JavaScript regexes on their ASCII literals). -/
def startsWithCI (pat : List Char) (cs : List Char) : Bool :=
  (cs.take pat.length).map Char.toLower == pat

/-- Locate the first case-insensitive occurrence of `pat`, returning the text
before it and the text after it. -/
def findSubCI (pat : List Char) : List Char → Option (List Char × List Char)
  | [] => none
  | c :: rest =>
    if startsWithCI pat (c :: rest) then some ([], (c :: rest).drop pat.length)
    else
      match findSubCI pat rest with
      | some (b, a) => some (c :: b, a)
      | none => none

/-- Scanner for `/<loc>([\s\S]*?)<\/loc>/gi`: at the first `<loc>` the
non-greedy capture runs to the nearest `</loc>` (no further match exists when
the closing tag is missing); each captured span is trimmed and scanning
resumes after the closing tag. The fuel argument (instantiated with the text
length, an upper bound on every suffix scanned) makes the recursion
structural. -/
def scanLocsGo : Nat → List Char → List String
  | 0, _ => []
  | fuel + 1, cs =>
    match cs with
    | [] => []
    | c :: rest =>
      if startsWithCI "<loc>".data (c :: rest) then
        match findSubCI "</loc>".data ((c :: rest).drop 5) with
        | some (inner, after) => jsTrim ⟨inner⟩ :: scanLocsGo fuel after
        | none => []
      else scanLocsGo fuel rest

/-- `extractLocsFromSitemap` (`1-find-blog-posts.js` lines 45-54): falsy text
yields no locations; otherwise all `<loc>` captures, deduplicated. -/
def extractLocsFromSitemap (xmlText : String) : List String :=
  if xmlText = "" then []
  else dedupFirst (scanLocsGo xmlText.data.length xmlText.data)

/-- The sitemap-document test of lines 130-132: the lower-cased location with
its query string dropped ends in ".xml" or ".xml.gz". -/
def locIsXml (l : String) : Bool :=
  let low := jsToLower (takeBefore '?' l)
  jsEndsWith low ".xml" || jsEndsWith low ".xml.gz"

/-- The loop over the extracted locations (lines 127-142): a location that
looks like a sitemap is expanded through `recurse` (threading the visited
set), every other location is a terminal page URL. (The source guards
`pageUrls.push(...nested)` behind `nested.length`, a no-op, and carries a
dead `catch` — nothing in the loop body throws.) -/
def expandStep (recurse : String → List String → List String × List String) :
    List String → List String → List String × List String
  | [], visited => ([], visited)
  | l :: rest, visited =>
    if locIsXml l then
      let res := recurse l visited
      let res2 := expandStep recurse rest res.2
      (res.1 ++ res2.1, res2.2)
    else
      let res2 := expandStep recurse rest visited
      (l :: res2.1, res2.2)

/-- Fuel-indexed body of `fetchSitemapUrls`; the public wrapper instantiates
the fuel with `7 - depth`, which the depth guard keeps in sync (see
`fetchSitemapUrls_eq`). -/
def goFetch (f nf : String → Option String) :
    Nat → String → List String → Nat → List String × List String
  | 0, _, visited, _ => ([], visited)
  | fuel + 1, s, visited, depth =>
    if s = "" ∨ depth > 6 then ([], visited)
    else
      match nf s with
      | none => ([], visited)
      | some norm =>
        if norm ∈ visited then ([], visited)
        else
          match f norm with
          | none => ([], visited ++ [norm])
          | some text =>
            if text = "" then ([], visited ++ [norm])
            else if extractLocsFromSitemap text = [] then ([], visited ++ [norm])
            else
              (dedupFirst (expandStep (fun l v => goFetch f nf fuel l v (depth + 1))
                  (extractLocsFromSitemap text) (visited ++ [norm])).1,
                (expandStep (fun l v => goFetch f nf fuel l v (depth + 1))
                  (extractLocsFromSitemap text) (visited ++ [norm])).2)

/-- `fetchSitemapUrls` (lines 116-147), returning the page URLs and the
updated visited set (the JavaScript `visited` set is mutated in place). -/
def fetchSitemapUrls (f nf : String → Option String) (s : String)
    (visited : List String) (depth : Nat) : List String × List String :=
  goFetch f nf (7 - depth) s visited depth

/-- The source-shaped unfolding of `fetchSitemapUrls`: empty URL or exhausted
depth yield nothing; a URL whose normalization throws yields nothing; an
already-visited normalization yields nothing; otherwise the normalization is
marked visited, the body is fetched (failure or emptiness yielding nothing),
the locations are extracted (none yielding nothing), and each location is
either recursed into at `depth + 1` or collected, the result being
deduplicated. -/
theorem fetchSitemapUrls_eq (f nf : String → Option String) (s : String)
    (visited : List String) (depth : Nat) :
    fetchSitemapUrls f nf s visited depth =
      if s = "" ∨ depth > 6 then ([], visited)
      else
        match nf s with
        | none => ([], visited)
        | some norm =>
          if norm ∈ visited then ([], visited)
          else
            match f norm with
            | none => ([], visited ++ [norm])
            | some text =>
              if text = "" then ([], visited ++ [norm])
              else if extractLocsFromSitemap text = [] then ([], visited ++ [norm])
              else
                (dedupFirst (expandStep
                    (fun l v => fetchSitemapUrls f nf l v (depth + 1))
                    (extractLocsFromSitemap text) (visited ++ [norm])).1,
                  (expandStep (fun l v => fetchSitemapUrls f nf l v (depth + 1))
                    (extractLocsFromSitemap text) (visited ++ [norm])).2) := by
  unfold fetchSitemapUrls
  cases h7 : 7 - depth with
  | zero =>
    have hd : depth > 6 := by omega
    rw [if_pos (Or.inr hd)]
    simp [goFetch]
  | succ k =>
    have hk : k = 7 - (depth + 1) := by omega
    subst hk
    rfl

/-- The loop over the sitemap roots tried in `findBlogForRoot` (lines 173-176
for the well-known candidates, lines 181-184 for the robots fallback): each
root is resolved with the shared visited set and the results are
concatenated. (The source's `if (locs && locs.length)` guard around `concat`
is a no-op, and `fetchSitemapUrls` never rejects, so its `.catch(() => [])`
is dead.) -/
def runRoots (f nf : String → Option String) :
    List String → List String → List String × List String
  | [], visited => ([], visited)
  | r :: rest, visited =>
    let res := fetchSitemapUrls f nf r visited 0
    let res2 := runRoots f nf rest res.2
    (res.1 ++ res2.1, res2.2)

/-- The JavaScript line `line.match(/^\s*Sitemap:\s*(.+)$/i)` followed by
`m[1].trim()`: leading whitespace is skipped, the keyword is matched
case-insensitively, and the rest of the line — which must be nonempty — is
trimmed (backtracking over `\s*(.+)$` composed with the final `trim` equals
trimming the whole remainder). -/
def sitemapDirective (line : String) : Option String :=
  let cs := line.data.dropWhile Char.isWhitespace
  if startsWithCI "sitemap:".data cs then
    let after := cs.drop 8
    if after = [] then none
    else some (jsTrim ⟨after⟩)
  else none

/-- JavaScript `s.split(c)` on a single-character separator. -/
def splitOnChar (c : Char) : List Char → List (List Char)
  | [] => [[]]
  | x :: xs =>
    let r := splitOnChar c xs
    if x = c then [] :: r
    else
      match r with
      | [] => [[x]]
      | h :: t => (x :: h) :: t

/-- Remove one trailing carriage return (the `\r?` of the separator). -/
def stripTrailingCr (l : List Char) : List Char :=
  if l.getLast? = some '\r' then l.dropLast else l

/-- Apply a function to every element except the last. -/
def mapInit {α : Type} (g : α → α) : List α → List α
  | [] => []
  | [x] => [x]
  | x :: y :: xs => g x :: mapInit g (y :: xs)

/-- JavaScript `txt.split(/\r?\n/)`: split on newlines, each piece that was
followed by a newline losing one trailing carriage return. -/
def splitLinesJs (s : String) : List String :=
  (mapInit stripTrailingCr (splitOnChar '\n' s.data)).map (fun l => (⟨l⟩ : String))

/-- `findSitemapsFromRobots` (lines 98-113): `new URL('/robots.txt', root)`
is the oracle `robotsUrlOf` (`none` when it throws, caught to `[]`); a failed
or falsy fetch yields `[]`; otherwise every line matching the `Sitemap:`
directive contributes its trimmed value. -/
def findSitemapsFromRobots (f : String → Option String)
    (robotsUrlOf : String → Option String) (rootUrl : String) : List String :=
  match robotsUrlOf rootUrl with
  | none => []
  | some robotsUrl =>
    match f robotsUrl with
    | none => []
    | some txt =>
      if txt = "" then []
      else (splitLinesJs txt).filterMap sitemapDirective

/-- `getSitemapCandidates` (lines 87-96): the four well-known locations at
the origin of the root URL; `new URL(rootUrl).origin` is the oracle
`originOf`, whose failure propagates out of `findBlogForRoot` as an
exception (`none`). -/
def getSitemapCandidates (originOf : String → Option String)
    (rootUrl : String) : Option (List String) :=
  match originOf rootUrl with
  | none => none
  | some origin =>
    some [origin ++ "/sitemap.xml", origin ++ "/sitemap_index.xml",
      origin ++ "/sitemap.xml.gz", origin ++ "/sitemap-index.xml"]

/-- `findFromHomepage` (lines 149-166): the rendered homepage's resolved
anchor hrefs are the oracle `anchors` (`none` when navigation fails, times
out or answers with status ≥ 400 — every such path returns `[]`); matching
uses the default `rootOnly = true` of `findMatches`. -/
def findFromHomepage (parseUrl : String → Option ParsedUrl)
    (anchors : Option (List String)) (patterns : List String) : List String :=
  match anchors with
  | none => []
  | some urls => findMatches parseUrl urls patterns true

/-- The social links extracted from the footer of the homepage (the detail of
`getSocialsFromPage` is not claimed; the page is an oracle). -/
structure Socials where
  x : List String
  linkedin : List String
deriving DecidableEq

/-- The record returned by `findBlogForRoot` (lines 209-213). -/
structure BlogResult where
  sitemap : List String
  homepage : List String
  socials : Socials
deriving DecidableEq

/-- `findBlogForRoot` (lines 168-214): try the well-known candidates with a
shared visited set; only when they produced no location, resolve the
`robots.txt` sitemaps the same way (still sharing the visited set); dedupe,
match with default `rootOnly = true`, and always scan the homepage for
matches and social links. `none` models the exception of a root URL whose
origin cannot be computed. -/
def findBlogForRoot (f nf : String → Option String)
    (parseUrl : String → Option ParsedUrl)
    (originOf robotsUrlOf : String → Option String)
    (anchors : Option (List String)) (socials : Socials)
    (root : String) (patterns : List String) : Option BlogResult :=
  match getSitemapCandidates originOf root with
  | none => none
  | some candidates =>
    some ⟨findMatches parseUrl
        (dedupFirst
          (if (runRoots f nf candidates []).1 = [] then
            (runRoots f nf candidates []).1 ++
              (runRoots f nf (findSitemapsFromRobots f robotsUrlOf root)
                (runRoots f nf candidates []).2).1
          else (runRoots f nf candidates []).1))
        patterns true,
      findFromHomepage parseUrl anchors patterns, socials⟩

/-- The selection in `main` (line 340): sitemap matches win; homepage matches
are used only when there are no sitemap matches. -/
def selectMatches (r : BlogResult) : List String :=
  if r.sitemap ≠ [] then r.sitemap
  else if r.homepage ≠ [] then r.homepage
  else []

/-- The per-site strict filtering of `main` (line 341): the selected matches
run through `findMatches` once more with the site's configured `rootOnly`. -/
def siteStrictMatches (parseUrl : String → Option ParsedUrl) (r : BlogResult)
    (patterns : List String) (rootOnly : Bool) : List String :=
  findMatches parseUrl (selectMatches r) patterns rootOnly

/-! ### Visited-set invariants -/

theorem expandStep_visited_ext
    (recurse : String → List String → List String × List String)
    (hrec : ∀ l v, ∃ w, (recurse l v).2 = v ++ w) :
    ∀ (ls : List String) (v : List String),
      ∃ w, (expandStep recurse ls v).2 = v ++ w := by
  intro ls
  induction ls with
  | nil => intro v; exact ⟨[], by simp [expandStep]⟩
  | cons l rest ih =>
    intro v
    rw [expandStep]
    by_cases hx : locIsXml l
    · rw [if_pos hx]
      obtain ⟨w1, h1⟩ := hrec l v
      obtain ⟨w2, h2⟩ := ih (recurse l v).2
      refine ⟨w1 ++ w2, ?_⟩
      rw [h2, h1, List.append_assoc]
    · rw [if_neg hx]
      obtain ⟨w2, h2⟩ := ih v
      exact ⟨w2, by simpa using h2⟩

theorem goFetch_visited_ext (f nf : String → Option String) :
    ∀ (fuel : Nat) (s : String) (v : List String) (d : Nat),
      ∃ w, (goFetch f nf fuel s v d).2 = v ++ w := by
  intro fuel
  induction fuel with
  | zero => intro s v d; exact ⟨[], by simp [goFetch]⟩
  | succ fuel ih =>
    intro s v d
    rw [goFetch]
    split
    · exact ⟨[], by simp⟩
    · split
      · exact ⟨[], by simp⟩
      · rename_i norm _
        split
        · exact ⟨[], by simp⟩
        · split
          · exact ⟨[norm], rfl⟩
          · split
            · exact ⟨[norm], rfl⟩
            · split
              · exact ⟨[norm], rfl⟩
              · obtain ⟨w, hw⟩ := expandStep_visited_ext
                  (fun l v => goFetch f nf fuel l v (d + 1))
                  (fun l v => ih l v (d + 1)) _ (v ++ [norm])
                exact ⟨[norm] ++ w, by simpa [List.append_assoc] using hw⟩

theorem fetchSitemapUrls_visited_ext (f nf : String → Option String)
    (s : String) (v : List String) (d : Nat) :
    ∃ w, (fetchSitemapUrls f nf s v d).2 = v ++ w :=
  goFetch_visited_ext f nf (7 - d) s v d

theorem expandStep_nodup
    (recurse : String → List String → List String × List String)
    (hrec : ∀ l v, v.Nodup → (recurse l v).2.Nodup) :
    ∀ (ls : List String) (v : List String),
      v.Nodup → (expandStep recurse ls v).2.Nodup := by
  intro ls
  induction ls with
  | nil => intro v hv; simpa [expandStep] using hv
  | cons l rest ih =>
    intro v hv
    rw [expandStep]
    by_cases hx : locIsXml l
    · rw [if_pos hx]
      exact ih _ (hrec l v hv)
    · rw [if_neg hx]
      exact ih v hv

theorem goFetch_nodup (f nf : String → Option String) :
    ∀ (fuel : Nat) (s : String) (v : List String) (d : Nat),
      v.Nodup → (goFetch f nf fuel s v d).2.Nodup := by
  intro fuel
  induction fuel with
  | zero => intro s v d hv; simpa [goFetch] using hv
  | succ fuel ih =>
    intro s v d hv
    rw [goFetch]
    have hv1 : ∀ norm : String, norm ∉ v → (v ++ [norm]).Nodup := by
      intro norm hnm
      simp [List.nodup_append, hv, hnm]
    split
    · exact hv
    · split
      · exact hv
      · rename_i norm _
        split
        · exact hv
        · rename_i hnm
          split
          · exact hv1 norm hnm
          · split
            · exact hv1 norm hnm
            · split
              · exact hv1 norm hnm
              · exact expandStep_nodup
                  (fun l v => goFetch f nf fuel l v (d + 1))
                  (fun l v hv' => ih l v (d + 1) hv') _ _ (hv1 norm hnm)

/-! ### Concrete cyclic sitemap graph: A references B, B references A -/

/-- Normalization oracle behaving like `new URL` on already-canonical URLs:
the empty string throws, everything else normalizes to itself. -/
def idNorm : String → Option String := fun s => if s = "" then none else some s

/-- A cyclic two-document sitemap universe: sitemap A lists sitemap B and a
page, sitemap B lists sitemap A and another page. -/
def cycFetch : String → Option String := fun s =>
  if s = "https://e.com/a.xml" then
    some "<loc>https://e.com/b.xml</loc><loc>https://e.com/pageA</loc>"
  else if s = "https://e.com/b.xml" then
    some "<loc>https://e.com/a.xml</loc><loc>https://e.com/pageB</loc>"
  else none

/-- Claim C1: sitemap expansion always terminates with a finite list — in
particular on the cyclic graph A ↔ B, which evaluates to exactly the two
pages with each sitemap expanded once; a call beyond the depth bound (depth
> 6) returns nothing; a URL normalizing into the visited set is not
re-expanded (the membership check precedes everything else); and the visited
set only ever grows by fresh normalized URLs, staying duplicate-free, so each
normalized sitemap URL is fetched and expanded at most once per run. -/
theorem claim_C1 :
    fetchSitemapUrls cycFetch idNorm "https://e.com/a.xml" [] 0
      = (["https://e.com/pageB", "https://e.com/pageA"],
         ["https://e.com/a.xml", "https://e.com/b.xml"])
    ∧ (∀ (f nf : String → Option String) (s : String) (v : List String) (d : Nat),
        6 < d → fetchSitemapUrls f nf s v d = ([], v))
    ∧ (∀ (f nf : String → Option String) (s : String) (v : List String) (d : Nat)
        (n : String), nf s = some n → n ∈ v → fetchSitemapUrls f nf s v d = ([], v))
    ∧ (∀ (f nf : String → Option String) (s : String) (v : List String) (d : Nat),
        v.Nodup →
          (fetchSitemapUrls f nf s v d).2.Nodup
          ∧ ∃ w, (fetchSitemapUrls f nf s v d).2 = v ++ w) := by
  refine ⟨by decide, ?_, ?_, ?_⟩
  · intro f nf s v d hd
    unfold fetchSitemapUrls
    have h7 : 7 - d = 0 := by omega
    rw [h7, goFetch]
  · intro f nf s v d n hn hmem
    rw [fetchSitemapUrls_eq]
    split
    · rfl
    · rw [hn]
      simp only [if_pos hmem]
  · intro f nf s v d hv
    exact ⟨goFetch_nodup f nf (7 - d) s v d hv, fetchSitemapUrls_visited_ext f nf s v d⟩

/-- Witness for C1 at concrete inputs: a call at depth 7 returns nothing; a
URL whose normalization is already visited returns nothing; and from a
duplicate-free visited set the resulting visited set of the cyclic run is
duplicate-free and extends it. -/
theorem claim_C1_witness :
    fetchSitemapUrls cycFetch idNorm "https://e.com/a.xml" ["x"] 7 = ([], ["x"])
    ∧ fetchSitemapUrls cycFetch idNorm "https://e.com/a.xml"
        ["https://e.com/a.xml"] 0 = ([], ["https://e.com/a.xml"])
    ∧ (fetchSitemapUrls cycFetch idNorm "https://e.com/a.xml" [] 0).2.Nodup :=
  ⟨claim_C1.2.1 cycFetch idNorm "https://e.com/a.xml" ["x"] 7 (by omega),
   claim_C1.2.2.1 cycFetch idNorm "https://e.com/a.xml" ["https://e.com/a.xml"] 0
     "https://e.com/a.xml" (by decide) (by decide),
   (claim_C1.2.2.2 cycFetch idNorm "https://e.com/a.xml" [] 0 (by decide)).1⟩

/-! ### Claims C8, C5, C7 -/

/-- Claim C8: homepage-anchor matching always runs `findMatches` with
`rootOnly = true` (there is no configured-`rootOnly` input to the homepage
scan at all), so a parseable homepage anchor is returned only if its
lower-cased path equals one of the lower-cased patterns exactly, modulo one
trailing slash. -/
theorem claim_C8 :
    ∀ (parseUrl : String → Option ParsedUrl) (anchors : Option (List String))
      (patterns : List String),
      findFromHomepage parseUrl anchors patterns
        = findMatches parseUrl (anchors.getD []) patterns true
      ∧ ∀ (u : String) (p : ParsedUrl),
          u ∈ findFromHomepage parseUrl anchors patterns →
          parseUrl u = some p →
          ∃ pat ∈ patterns, jsToLower (effectivePath p) = jsToLower pat ∨
            jsToLower (effectivePath p) = jsToLower pat ++ "/" := by
  intro parseUrl anchors patterns
  constructor
  · cases anchors with
    | none => rfl
    | some urls => rfl
  · intro u p hmem hp
    cases anchors with
    | none => simp [findFromHomepage] at hmem
    | some urls =>
      simp only [findFromHomepage] at hmem
      obtain ⟨-, pat, hpat, hmatch⟩ := (mem_findMatches _ _ _ _ _).mp hmem
      exact ⟨pat, hpat, ((matchesPattern_parsed parseUrl u pat p hp).1).mp hmatch⟩

/-- Witness for C8 at a concrete input: one parseable anchor matching the
pattern root-only, with the strict path-equality consequence. -/
theorem claim_C8_witness :
    findFromHomepage exampleParse (some ["https://x.com/blog/"]) ["/blog"]
      = findMatches exampleParse ((some ["https://x.com/blog/"]).getD []) ["/blog"] true
    ∧ ∃ pat ∈ ["/blog"],
        jsToLower (effectivePath ⟨"/blog/"⟩) = jsToLower pat ∨
          jsToLower (effectivePath ⟨"/blog/"⟩) = jsToLower pat ++ "/" :=
  ⟨(claim_C8 exampleParse (some ["https://x.com/blog/"]) ["/blog"]).1,
   (claim_C8 exampleParse (some ["https://x.com/blog/"]) ["/blog"]).2
     "https://x.com/blog/" ⟨"/blog/"⟩ (by decide) (by decide)⟩

/-- Sitemap universe for the C5 counterexample: one candidate holds one
matching page location. -/
def exFetch : String → Option String := fun s =>
  if s = "https://e.com/sitemap.xml" then some "<loc>https://e.com/blog</loc>"
  else none

/-- URL oracle of the C5 counterexample site: the blog page parses with
pathname "/blog". -/
def exParseBlog : String → Option ParsedUrl := fun s =>
  if s = "https://e.com/blog" then some ⟨"/blog"⟩ else none

/-- Origin oracle of the C5 counterexample site. -/
def exOrigin : String → Option String := fun s =>
  if s = "https://e.com" then some "https://e.com" else none

/-- Counterexample to claim C5 as stated: on a site whose sitemap matching
yields a URL, the homepage scan still runs and its matches still populate the
homepage field of the discovery result — the scan is unconditional (it also
collects social links), only the later selection ignores its output. -/
theorem claim_C5_counterexample :
    findBlogForRoot exFetch idNorm exParseBlog exOrigin (fun _ => none)
        (some ["https://e.com/blog"]) ⟨[], []⟩ "https://e.com" ["/blog"]
      = some ⟨["https://e.com/blog"], ["https://e.com/blog"], ⟨[], []⟩⟩
    ∧ (["https://e.com/blog"] : List String) ≠ [] := by
  exact ⟨by decide, by decide⟩

/-- Claim C5 amended: the homepage scan always runs as part of
`findBlogForRoot` (it also collects social links), but homepage matches
contribute nothing to the matches selected for a site whose sitemap matching
yielded at least one URL: the selection takes exactly the sitemap matches and
the strict filtering operates on those alone. -/
theorem claim_C5 :
    ∀ (f nf : String → Option String) (parseUrl : String → Option ParsedUrl)
      (originOf robotsUrlOf : String → Option String)
      (anchors : Option (List String)) (socials : Socials)
      (root : String) (patterns : List String) (r : BlogResult) (rootOnly : Bool),
      findBlogForRoot f nf parseUrl originOf robotsUrlOf anchors socials root patterns
        = some r →
      r.sitemap ≠ [] →
      selectMatches r = r.sitemap
      ∧ siteStrictMatches parseUrl r patterns rootOnly
          = findMatches parseUrl r.sitemap patterns rootOnly := by
  intro f nf parseUrl originOf robotsUrlOf anchors socials root patterns r rootOnly hres hne
  have hsel : selectMatches r = r.sitemap := by
    unfold selectMatches
    rw [if_pos hne]
  exact ⟨hsel, by unfold siteStrictMatches; rw [hsel]⟩

/-- Witness for the amended C5 at the counterexample site: with nonempty
sitemap matches, the selection is exactly the sitemap matches. -/
theorem claim_C5_witness :
    selectMatches ⟨["https://e.com/blog"], ["https://e.com/blog"], ⟨[], []⟩⟩
      = ["https://e.com/blog"]
    ∧ siteStrictMatches exParseBlog
        ⟨["https://e.com/blog"], ["https://e.com/blog"], ⟨[], []⟩⟩ ["/blog"] false
      = findMatches exParseBlog ["https://e.com/blog"] ["/blog"] false :=
  claim_C5 exFetch idNorm exParseBlog exOrigin (fun _ => none)
    (some ["https://e.com/blog"]) ⟨[], []⟩ "https://e.com" ["/blog"]
    ⟨["https://e.com/blog"], ["https://e.com/blog"], ⟨[], []⟩⟩ false
    (by decide) (by decide)

theorem dropWhile_all_append (p : Char → Bool) (xs ys : List Char)
    (h : ∀ x ∈ xs, p x) : (xs ++ ys).dropWhile p = ys.dropWhile p := by
  induction xs with
  | nil => rfl
  | cons a as ih =>
    rw [List.cons_append, List.dropWhile_cons]
    rw [if_pos (h a (List.mem_cons_self a as))]
    exact ih (fun x hx => h x (List.mem_cons_of_mem a hx))

theorem toLower_of_isWhitespace (c : Char) (h : c.isWhitespace) : c.toLower = c := by
  have h2 : ((c = ' ' ∨ c = '\t') ∨ c = '\r') ∨ c = '\n' := by
    simpa [Char.isWhitespace] using h
  rcases h2 with ((rfl | rfl) | rfl) | rfl <;> decide

/-- Claim C7: robots.txt is consulted only when no well-known candidate
yielded a location — with nonempty candidate locations the result is computed
from the candidate phase alone, independent of the robots oracle; a
`Sitemap:` directive is recognized case-insensitively with its value trimmed;
and single failures swallow to empty results (an unresolvable or unfetchable
robots.txt yields no sitemaps, a sitemap URL whose normalization or fetch
fails contributes no page URLs), the resolver being a total function. -/
theorem claim_C7 :
    (∀ (f nf : String → Option String) (parseUrl : String → Option ParsedUrl)
       (originOf robotsUrlOf robotsUrlOf2 : String → Option String)
       (anchors : Option (List String)) (socials : Socials)
       (root : String) (patterns : List String) (candidates : List String),
      getSitemapCandidates originOf root = some candidates →
      (runRoots f nf candidates []).1 ≠ [] →
      findBlogForRoot f nf parseUrl originOf robotsUrlOf anchors socials root patterns
        = some ⟨findMatches parseUrl (dedupFirst (runRoots f nf candidates []).1)
            patterns true,
          findFromHomepage parseUrl anchors patterns, socials⟩
      ∧ findBlogForRoot f nf parseUrl originOf robotsUrlOf anchors socials root patterns
        = findBlogForRoot f nf parseUrl originOf robotsUrlOf2 anchors socials root patterns)
    ∧ (∀ (ws kw rest : String),
      (∀ c ∈ ws.data, c.isWhitespace) →
      jsToLower kw = "sitemap:" →
      sitemapDirective (ws ++ kw ++ rest) = if rest = "" then none else some (jsTrim rest))
    ∧ (∀ (f robotsUrlOf : String → Option String) (root : String),
        robotsUrlOf root = none → findSitemapsFromRobots f robotsUrlOf root = [])
    ∧ (∀ (f robotsUrlOf : String → Option String) (root ru : String),
        robotsUrlOf root = some ru → f ru = none →
        findSitemapsFromRobots f robotsUrlOf root = [])
    ∧ (∀ (f nf : String → Option String) (s : String) (v : List String) (d : Nat),
        (nf s).bind f = none → (fetchSitemapUrls f nf s v d).1 = []) := by
  refine ⟨?_, ?_, ?_, ?_, ?_⟩
  · intro f nf parseUrl originOf robotsUrlOf robotsUrlOf2 anchors socials root
      patterns candidates hc hne
    have h1 : ∀ (rob : String → Option String),
        findBlogForRoot f nf parseUrl originOf rob anchors socials root patterns
          = some ⟨findMatches parseUrl (dedupFirst (runRoots f nf candidates []).1)
              patterns true,
            findFromHomepage parseUrl anchors patterns, socials⟩ := by
      intro rob
      unfold findBlogForRoot
      rw [hc]
      simp only [if_neg hne]
    exact ⟨h1 robotsUrlOf, (h1 robotsUrlOf).trans (h1 robotsUrlOf2).symm⟩
  · intro ws kw rest hws hkw
    have hdata : kw.data.map Char.toLower = "sitemap:".data := congrArg String.data hkw
    have hlen8 : kw.data.length = "sitemap:".data.length := by
      have := congrArg List.length hdata
      simpa using this
    have hlen : kw.data.length = 8 := by
      rw [hlen8]
      decide
    unfold sitemapDirective
    have hsplit : (ws ++ kw ++ rest).data = ws.data ++ (kw.data ++ rest.data) := by
      rw [String.data_append, String.data_append, List.append_assoc]
    rw [hsplit, dropWhile_all_append _ _ _ hws]
    obtain ⟨k0, ktail, hkd⟩ : ∃ k0 ktail, kw.data = k0 :: ktail := by
      cases hkw2 : kw.data with
      | nil => rw [hkw2] at hlen; simp at hlen
      | cons a b => exact ⟨a, b, rfl⟩
    have hk0 : Char.toLower k0 = 's' := by
      rw [hkd] at hdata
      simpa using congrArg List.head? hdata
    have hk0w : ¬ (k0.isWhitespace = true) := by
      intro hw
      rw [toLower_of_isWhitespace k0 hw] at hk0
      subst hk0
      simp [Char.isWhitespace] at hw
    have hdrop : (kw.data ++ rest.data).dropWhile Char.isWhitespace
        = kw.data ++ rest.data := by
      rw [hkd, List.cons_append, List.dropWhile_cons, if_neg hk0w]
    rw [hdrop]
    have hstarts : startsWithCI "sitemap:".data (kw.data ++ rest.data) = true := by
      unfold startsWithCI
      rw [List.take_left' hlen8, hdata]
      simp
    rw [if_pos hstarts]
    have hdrop8 : (kw.data ++ rest.data).drop 8 = rest.data := by
      rw [List.drop_left' hlen]
    rw [hdrop8]
    by_cases hr : rest = ""
    · subst hr
      simp
    · have hrd : rest.data ≠ [] := by
        intro h0
        exact hr (String.ext h0)
      rw [if_neg hrd, if_neg hr]
  · intro f robotsUrlOf root h
    unfold findSitemapsFromRobots
    rw [h]
  · intro f robotsUrlOf root ru h1 h2
    unfold findSitemapsFromRobots
    rw [h1]
    simp [h2]
  · intro f nf s v d hb
    rw [fetchSitemapUrls_eq]
    split
    · rfl
    · split
      · rfl
      · rename_i norm heq1
        split
        · rfl
        · rw [heq1] at hb
          simp only [Option.some_bind] at hb
          rw [hb]

/-- Witness for C7 at concrete inputs: with a matching candidate sitemap the
robots oracle is irrelevant; a mixed-case directive line parses to its
trimmed value; and failing oracles produce empty results. -/
theorem claim_C7_witness :
    (findBlogForRoot exFetch idNorm exParseBlog exOrigin (fun _ => none)
        (some ["https://e.com/blog"]) ⟨[], []⟩ "https://e.com" ["/blog"]
      = findBlogForRoot exFetch idNorm exParseBlog exOrigin (fun _ => some "u")
        (some ["https://e.com/blog"]) ⟨[], []⟩ "https://e.com" ["/blog"])
    ∧ sitemapDirective ("  " ++ "SiTeMaP:" ++ " https://e.com/s.xml ")
        = some "https://e.com/s.xml"
    ∧ findSitemapsFromRobots (fun _ => none) (fun _ => some "https://e.com/robots.txt")
        "https://e.com" = []
    ∧ (fetchSitemapUrls (fun _ => none) idNorm "https://e.com/sitemap.xml" [] 0).1 = [] := by
  refine ⟨?_, ?_, ?_, ?_⟩
  · exact (claim_C7.1 exFetch idNorm exParseBlog exOrigin (fun _ => none)
      (fun _ => some "u") (some ["https://e.com/blog"]) ⟨[], []⟩ "https://e.com"
      ["/blog"] _ rfl (by decide)).2
  · rw [claim_C7.2.1 "  " "SiTeMaP:" " https://e.com/s.xml "
      (by decide) (by decide)]
    decide
  · exact claim_C7.2.2.2.1 (fun _ => none) (fun _ => some "https://e.com/robots.txt")
      "https://e.com" "https://e.com/robots.txt" rfl rfl
  · exact claim_C7.2.2.2.2 (fun _ => none) idNorm "https://e.com/sitemap.xml" [] 0 rfl

/-! ### Claim C3: the resolver output as a reachability union

Specification-side reading of the sitemap graph, for the refinement
comparison: the nodes are normalized sitemap URLs, a document's locations are
what `extractLocsFromSitemap` yields on its fetched body, locations are
terminal or nested according to the source's own `locIsXml` test, and
reachability follows nested locations through the normalization oracle. -/

section SitemapGraph

variable (f nf : String → Option String)

/-- The locations of the document at a normalized sitemap URL (none when the
fetch fails; an empty body has no locations). -/
def docLocs (n : String) : List String :=
  match f n with
  | none => []
  | some text => extractLocsFromSitemap text

/-- The terminal (page) locations of a document: those not shaped like a
sitemap. -/
def terminalsOf (n : String) : List String :=
  (docLocs f n).filter (fun l => !locIsXml l)

/-- The nested sitemap locations of a document. -/
def xmlLocsOf (n : String) : List String :=
  (docLocs f n).filter locIsXml

/-- One nesting step between normalized sitemap URLs. -/
def edgeN (n m : String) : Prop :=
  ∃ l ∈ xmlLocsOf f n, nf l = some m

/-- Reachability along nesting steps. -/
inductive ReachFrom (n : String) : String → Prop
  | refl : ReachFrom n n
  | tail {m p : String} : ReachFrom n m → edgeN f nf m p → ReachFrom n p

/-- A normalized sitemap URL reachable from one of the root URLs fed to the
resolver. -/
def RootReach (roots : List String) (m : String) : Prop :=
  ∃ r n0, r ∈ roots ∧ r ≠ "" ∧ nf r = some n0 ∧ ReachFrom f nf n0 m

theorem ReachFrom.head_step {n p m : String} (h1 : edgeN f nf n p)
    (h2 : ReachFrom f nf p m) : ReachFrom f nf n m := by
  induction h2 with
  | refl => exact ReachFrom.tail ReachFrom.refl h1
  | tail hr he ih => exact ReachFrom.tail ih he

/-! #### Soundness: everything collected is a terminal of a reachable document -/

theorem expandStep_keeps_pages
    (recurse : String → List String → List String × List String) :
    ∀ (ls : List String) (v : List String) (l : String),
      l ∈ ls → locIsXml l = false → l ∈ (expandStep recurse ls v).1 := by
  intro ls
  induction ls with
  | nil => intro v l h; simp at h
  | cons a rest ih =>
    intro v l hmem hx
    rw [expandStep]
    rcases List.mem_cons.mp hmem with rfl | hmem
    · rw [if_neg (by simp [hx])]
      exact List.mem_cons_self _ _
    · by_cases ha : locIsXml a
      · rw [if_pos ha]
        exact List.mem_append_right _ (ih _ l hmem hx)
      · rw [if_neg ha]
        exact List.mem_cons_of_mem _ (ih _ l hmem hx)

theorem expandStep_sound
    (recurse : String → List String → List String × List String)
    (Q : String → String → Prop) :
    ∀ ls : List String,
      (∀ l v x, l ∈ ls → locIsXml l = true → x ∈ (recurse l v).1 → Q l x) →
      ∀ (v : List String) (x : String), x ∈ (expandStep recurse ls v).1 →
        (∃ l ∈ ls, locIsXml l = false ∧ x = l) ∨
          (∃ l ∈ ls, locIsXml l = true ∧ Q l x) := by
  intro ls
  induction ls with
  | nil => intro hA v x h; simp [expandStep] at h
  | cons a rest ih =>
    intro hA v x hx
    rw [expandStep] at hx
    by_cases ha : locIsXml a
    · rw [if_pos ha] at hx
      rcases List.mem_append.mp hx with hx | hx
      · exact Or.inr ⟨a, List.mem_cons_self _ _, ha, hA a v x (List.mem_cons_self _ _) ha hx⟩
      · rcases ih (fun l v x hl => hA l v x (List.mem_cons_of_mem a hl)) _ x hx with
          ⟨l, hl, hxl, rfl⟩ | ⟨l, hl, hxl, hq⟩
        · exact Or.inl ⟨x, List.mem_cons_of_mem a hl, hxl, rfl⟩
        · exact Or.inr ⟨l, List.mem_cons_of_mem a hl, hxl, hq⟩
    · rw [if_neg ha] at hx
      rcases List.mem_cons.mp hx with rfl | hx
      · exact Or.inl ⟨x, List.mem_cons_self _ _, by simpa using ha, rfl⟩
      · rcases ih (fun l v x hl => hA l v x (List.mem_cons_of_mem a hl)) _ x hx with
          ⟨l, hl, hxl, rfl⟩ | ⟨l, hl, hxl, hq⟩
        · exact Or.inl ⟨x, List.mem_cons_of_mem a hl, hxl, rfl⟩
        · exact Or.inr ⟨l, List.mem_cons_of_mem a hl, hxl, hq⟩

theorem goFetch_sound :
    ∀ (fuel : Nat) (s : String) (v : List String) (d : Nat) (x : String),
      x ∈ (goFetch f nf fuel s v d).1 →
      ∃ n0, nf s = some n0 ∧ ∃ m, ReachFrom f nf n0 m ∧ x ∈ terminalsOf f m := by
  intro fuel
  induction fuel with
  | zero => intro s v d x hx; simp [goFetch] at hx
  | succ fuel ih =>
    intro s v d x hx
    rw [goFetch] at hx
    split at hx
    · simp at hx
    · split at hx
      · simp at hx
      · rename_i norm hnf
        split at hx
        · simp at hx
        · split at hx
          · simp at hx
          · rename_i text htext
            split at hx
            · simp at hx
            · split at hx
              · simp at hx
              · rename_i hne hlocs
                rw [mem_dedupFirst] at hx
                have hdoc : docLocs f norm = extractLocsFromSitemap text := by
                  unfold docLocs
                  rw [htext]
                rcases expandStep_sound (fun l v => goFetch f nf fuel l v (d + 1))
                    (fun l x => ∃ p, nf l = some p ∧
                      ∃ m, ReachFrom f nf p m ∧ x ∈ terminalsOf f m)
                    (extractLocsFromSitemap text)
                    (fun l v x hl hxml hmem => by
                      obtain ⟨p, hp, m, hr, ht⟩ := ih l v (d + 1) x hmem
                      exact ⟨p, hp, m, hr, ht⟩)
                    _ x hx with
                  ⟨l, hl, hxml, rfl⟩ | ⟨l, hl, hxml, p, hp, m, hr, ht⟩
                · refine ⟨norm, hnf, norm, ReachFrom.refl, ?_⟩
                  unfold terminalsOf
                  rw [hdoc]
                  exact List.mem_filter.mpr ⟨hl, by simp [hxml]⟩
                · refine ⟨norm, hnf, m, ?_, ht⟩
                  refine ReachFrom.head_step f nf ?_ hr
                  refine ⟨l, ?_, hp⟩
                  unfold xmlLocsOf
                  rw [hdoc]
                  exact List.mem_filter.mpr ⟨hl, hxml⟩

theorem runRoots_sound :
    ∀ (roots : List String) (v : List String) (x : String),
      x ∈ (runRoots f nf roots v).1 →
      ∃ r n0, r ∈ roots ∧ nf r = some n0 ∧
        ∃ m, ReachFrom f nf n0 m ∧ x ∈ terminalsOf f m := by
  intro roots
  induction roots with
  | nil => intro v x hx; simp [runRoots] at hx
  | cons r rest ih =>
    intro v x hx
    rw [runRoots] at hx
    rcases List.mem_append.mp hx with hx | hx
    · obtain ⟨n0, hn0, m, hr, ht⟩ := goFetch_sound f nf (7 - 0) r v 0 x hx
      exact ⟨r, n0, List.mem_cons_self _ _, hn0, m, hr, ht⟩
    · obtain ⟨r2, n0, hr2, hn0, m, hrm, ht⟩ := ih _ x hx
      exact ⟨r2, n0, List.mem_cons_of_mem _ hr2, hn0, m, hrm, ht⟩

/-! #### Completeness: every terminal of a reachable document is collected
(under the depth bound) -/

theorem extractLocs_empty : extractLocsFromSitemap "" = [] := by
  rfl

theorem goFetch_covers (H0 : nf "" = none) :
    ∀ (fuel : Nat) (s : String) (v : List String) (d : Nat) (n0 : String),
      nf s = some n0 → d ≤ 6 → 7 ≤ fuel + d →
      n0 ∈ (goFetch f nf fuel s v d).2 := by
  intro fuel s v d n0 hn hd hfd
  cases fuel with
  | zero => exact absurd hfd (by omega)
  | succ fuel =>
    rw [goFetch]
    have hs : s ≠ "" := by
      intro h
      rw [h, H0] at hn
      cases hn
    rw [if_neg (not_or.mpr ⟨hs, by omega⟩)]
    simp only [hn]
    by_cases hv : n0 ∈ v
    · rw [if_pos hv]
      exact hv
    · rw [if_neg hv]
      have hbase : n0 ∈ v ++ [n0] := List.mem_append_right _ (List.mem_singleton.mpr rfl)
      cases hf : f n0 with
      | none => exact hbase
      | some text =>
        dsimp only
        by_cases ht : text = ""
        · rw [if_pos ht]
          exact hbase
        · rw [if_neg ht]
          by_cases hlocs : extractLocsFromSitemap text = []
          · rw [if_pos hlocs]
            exact hbase
          · rw [if_neg hlocs]
            obtain ⟨w, hw⟩ := expandStep_visited_ext
              (fun l v => goFetch f nf fuel l v (d + 1))
              (fun l v => goFetch_visited_ext f nf fuel l v (d + 1))
              (extractLocsFromSitemap text) (v ++ [n0])
            rw [hw]
            exact List.mem_append_left _ hbase

theorem expandStep_covers
    (recurse : String → List String → List String × List String)
    (hmono : ∀ l v, ∃ w, (recurse l v).2 = v ++ w) :
    ∀ ls : List String,
      (∀ l v p, l ∈ ls → locIsXml l = true → nf l = some p → p ∈ (recurse l v).2) →
      ∀ (v : List String) (l p : String), l ∈ ls → locIsXml l = true →
        nf l = some p → p ∈ (expandStep recurse ls v).2 := by
  intro ls
  induction ls with
  | nil => intro hC v l p h; simp at h
  | cons a rest ih =>
    intro hC v l p hmem hxml hnl
    rw [expandStep]
    rcases List.mem_cons.mp hmem with rfl | hmem
    · rw [if_pos hxml]
      obtain ⟨w, hw⟩ := expandStep_visited_ext recurse hmono rest (recurse l v).2
      rw [hw]
      exact List.mem_append_left _ (hC l v p (List.mem_cons_self _ _) hxml hnl)
    · have hC2 : ∀ l2 v p2, l2 ∈ rest → locIsXml l2 = true → nf l2 = some p2 →
          p2 ∈ (recurse l2 v).2 :=
        fun l2 v p2 h1 h2 h3 => hC l2 v p2 (List.mem_cons_of_mem a h1) h2 h3
      by_cases ha : locIsXml a
      · rw [if_pos ha]
        exact ih hC2 _ l p hmem hxml hnl
      · rw [if_neg ha]
        exact ih hC2 _ l p hmem hxml hnl

theorem expandStep_closure
    (recurse : String → List String → List String × List String)
    (hmono : ∀ l v, ∃ w, (recurse l v).2 = v ++ w) :
    ∀ ls : List String,
      (∀ l v m, l ∈ ls → locIsXml l = true → m ∈ (recurse l v).2 → m ∉ v →
        ∀ p, edgeN f nf m p → p ∈ (recurse l v).2) →
      ∀ (v : List String) (m : String), m ∈ (expandStep recurse ls v).2 → m ∉ v →
        ∀ p, edgeN f nf m p → p ∈ (expandStep recurse ls v).2 := by
  intro ls
  induction ls with
  | nil => intro hB v m hm hmv; exact absurd hm hmv
  | cons a rest ih =>
    intro hB v m hm hmv p he
    have hB2 : ∀ l v m, l ∈ rest → locIsXml l = true → m ∈ (recurse l v).2 → m ∉ v →
        ∀ p, edgeN f nf m p → p ∈ (recurse l v).2 :=
      fun l v m h1 h2 h3 h4 p h5 => hB l v m (List.mem_cons_of_mem a h1) h2 h3 h4 p h5
    rw [expandStep] at hm ⊢
    by_cases ha : locIsXml a
    · rw [if_pos ha] at hm ⊢
      by_cases hm1 : m ∈ (recurse a v).2
      · have hp : p ∈ (recurse a v).2 :=
          hB a v m (List.mem_cons_self _ _) ha hm1 hmv p he
        obtain ⟨w, hw⟩ := expandStep_visited_ext recurse hmono rest (recurse a v).2
        rw [hw]
        exact List.mem_append_left _ hp
      · exact ih hB2 _ m hm hm1 p he
    · rw [if_neg ha] at hm ⊢
      exact ih hB2 v m hm hmv p he

theorem expandStep_complete
    (recurse : String → List String → List String × List String) :
    ∀ ls : List String,
      (∀ l v m, l ∈ ls → locIsXml l = true → m ∈ (recurse l v).2 → m ∉ v →
        ∀ x, x ∈ terminalsOf f m → x ∈ (recurse l v).1) →
      ∀ (v : List String) (m : String), m ∈ (expandStep recurse ls v).2 → m ∉ v →
        ∀ x, x ∈ terminalsOf f m → x ∈ (expandStep recurse ls v).1 := by
  intro ls
  induction ls with
  | nil => intro hD v m hm hmv; exact absurd hm hmv
  | cons a rest ih =>
    intro hD v m hm hmv x ht
    have hD2 : ∀ l v m, l ∈ rest → locIsXml l = true → m ∈ (recurse l v).2 → m ∉ v →
        ∀ x, x ∈ terminalsOf f m → x ∈ (recurse l v).1 :=
      fun l v m h1 h2 h3 h4 => hD l v m (List.mem_cons_of_mem a h1) h2 h3 h4
    rw [expandStep] at hm ⊢
    by_cases ha : locIsXml a
    · rw [if_pos ha] at hm ⊢
      by_cases hm1 : m ∈ (recurse a v).2
      · exact List.mem_append_left _
          (hD a v m (List.mem_cons_self _ _) ha hm1 hmv x ht)
      · exact List.mem_append_right _ (ih hD2 _ m hm hm1 x ht)
    · rw [if_neg ha] at hm ⊢
      exact List.mem_cons_of_mem _ (ih hD2 v m hm hmv x ht)

theorem terminalsOf_eq_nil_of_docLocs (n : String) (h : docLocs f n = []) :
    terminalsOf f n = [] := by
  unfold terminalsOf
  rw [h]
  rfl

theorem xmlLocsOf_eq_nil_of_docLocs (n : String) (h : docLocs f n = []) :
    xmlLocsOf f n = [] := by
  unfold xmlLocsOf
  rw [h]
  rfl

theorem goFetch_complete :
    ∀ (fuel : Nat) (s : String) (v : List String) (d : Nat) (m : String),
      m ∈ (goFetch f nf fuel s v d).2 → m ∉ v →
      ∀ x, x ∈ terminalsOf f m → x ∈ (goFetch f nf fuel s v d).1 := by
  intro fuel
  induction fuel with
  | zero => intro s v d m hm hmv; exact absurd hm hmv
  | succ fuel ih =>
    intro s v d m hm hmv x ht
    rw [goFetch] at hm ⊢
    split at hm
    · exact absurd hm hmv
    · rename_i hcond
      split at hm
      · exact absurd hm hmv
      · rename_i norm hnf
        split at hm
        · exact absurd hm hmv
        · rename_i hnv
          split at hm
          · rename_i hf
            have hmn : m = norm := by
              rcases List.mem_append.mp hm with h | h
              · exact absurd h hmv
              · simpa using h
            subst hmn
            have hdoc : docLocs f m = [] := by
              unfold docLocs
              rw [hf]
            rw [terminalsOf_eq_nil_of_docLocs f m hdoc] at ht
            simp at ht
          · rename_i text hf
            split at hm
            · rename_i htext
              have hmn : m = norm := by
                rcases List.mem_append.mp hm with h | h
                · exact absurd h hmv
                · simpa using h
              subst hmn
              have hdoc : docLocs f m = [] := by
                unfold docLocs
                rw [hf, htext]
                exact extractLocs_empty
              rw [terminalsOf_eq_nil_of_docLocs f m hdoc] at ht
              simp at ht
            · rename_i htext
              split at hm
              · rename_i hlocs
                have hmn : m = norm := by
                  rcases List.mem_append.mp hm with h | h
                  · exact absurd h hmv
                  · simpa using h
                subst hmn
                have hdoc : docLocs f m = [] := by
                  unfold docLocs
                  rw [hf]
                  exact hlocs
                rw [terminalsOf_eq_nil_of_docLocs f m hdoc] at ht
                simp at ht
              · rename_i hlocs
                rw [if_neg hcond, if_neg hnv, if_neg htext, if_neg hlocs]
                dsimp only
                dsimp only at hm
                rw [mem_dedupFirst]
                by_cases hm1 : m ∈ v ++ [norm]
                · have hmn : m = norm := by
                    rcases List.mem_append.mp hm1 with h | h
                    · exact absurd h hmv
                    · simpa using h
                  subst hmn
                  have hdoc : docLocs f m = extractLocsFromSitemap text := by
                    unfold docLocs
                    rw [hf]
                  unfold terminalsOf at ht
                  rw [hdoc] at ht
                  obtain ⟨hmem, hxml⟩ := List.mem_filter.mp ht
                  exact expandStep_keeps_pages _ _ _ x hmem (by simpa using hxml)
                · exact expandStep_complete f
                    (fun l v => goFetch f nf fuel l v (d + 1))
                    (extractLocsFromSitemap text)
                    (fun l v m h1 h2 h3 h4 => ih l v (d + 1) m h3 h4)
                    _ m hm hm1 x ht

theorem goFetch_closure (μ : String → Nat) (H0 : nf "" = none)
    (Hμ1 : ∀ n m, edgeN f nf n m → μ n < μ m) (Hμ2 : ∀ n, μ n ≤ 6) :
    ∀ (fuel : Nat) (s : String) (v : List String) (d : Nat),
      (∀ n0, nf s = some n0 → d ≤ μ n0) → 7 ≤ fuel + d →
      ∀ m, m ∈ (goFetch f nf fuel s v d).2 → m ∉ v →
        ∀ p, edgeN f nf m p → p ∈ (goFetch f nf fuel s v d).2 := by
  intro fuel
  induction fuel with
  | zero => intro s v d hdepth hfd m hm hmv; exact absurd hm hmv
  | succ fuel ih =>
    intro s v d hdepth hfd m hm hmv p he
    rw [goFetch] at hm ⊢
    split at hm
    · exact absurd hm hmv
    · rename_i hcond
      split at hm
      · exact absurd hm hmv
      · rename_i norm hnf
        split at hm
        · exact absurd hm hmv
        · rename_i hnv
          split at hm
          · rename_i hf
            have hmn : m = norm := by
              rcases List.mem_append.mp hm with h | h
              · exact absurd h hmv
              · simpa using h
            subst hmn
            obtain ⟨l, hl, -⟩ := he
            rw [xmlLocsOf_eq_nil_of_docLocs f m (by unfold docLocs; rw [hf])] at hl
            simp at hl
          · rename_i text hf
            split at hm
            · rename_i htext
              have hmn : m = norm := by
                rcases List.mem_append.mp hm with h | h
                · exact absurd h hmv
                · simpa using h
              subst hmn
              obtain ⟨l, hl, -⟩ := he
              rw [xmlLocsOf_eq_nil_of_docLocs f m
                (by unfold docLocs; rw [hf, htext]; exact extractLocs_empty)] at hl
              simp at hl
            · rename_i htext
              split at hm
              · rename_i hlocs
                have hmn : m = norm := by
                  rcases List.mem_append.mp hm with h | h
                  · exact absurd h hmv
                  · simpa using h
                subst hmn
                obtain ⟨l, hl, -⟩ := he
                rw [xmlLocsOf_eq_nil_of_docLocs f m
                  (by unfold docLocs; rw [hf]; exact hlocs)] at hl
                simp at hl
              · rename_i hlocs
                have hdoc : docLocs f norm = extractLocsFromSitemap text := by
                  unfold docLocs
                  rw [hf]
                have hdbound : d ≤ μ norm := hdepth norm hnf
                rw [if_neg hcond, if_neg hnv, if_neg htext, if_neg hlocs]
                dsimp only
                dsimp only at hm
                have hchild : ∀ l2 p2, l2 ∈ extractLocsFromSitemap text →
                    locIsXml l2 = true → nf l2 = some p2 → d + 1 ≤ μ p2 := by
                  intro l2 p2 hl2 hx2 hn2
                  have hedge : edgeN f nf norm p2 := by
                    refine ⟨l2, ?_, hn2⟩
                    unfold xmlLocsOf
                    rw [hdoc]
                    exact List.mem_filter.mpr ⟨hl2, hx2⟩
                  have := Hμ1 norm p2 hedge
                  omega
                by_cases hm1 : m ∈ v ++ [norm]
                · have hmn : m = norm := by
                    rcases List.mem_append.mp hm1 with h | h
                    · exact absurd h hmv
                    · simpa using h
                  subst hmn
                  obtain ⟨l, hl, hnl⟩ := he
                  have hlmem : l ∈ extractLocsFromSitemap text ∧ locIsXml l = true := by
                    unfold xmlLocsOf at hl
                    rw [hdoc] at hl
                    exact ⟨(List.mem_filter.mp hl).1, (List.mem_filter.mp hl).2⟩
                  exact expandStep_covers nf
                    (fun l v => goFetch f nf fuel l v (d + 1))
                    (fun l v => goFetch_visited_ext f nf fuel l v (d + 1))
                    (extractLocsFromSitemap text)
                    (fun l2 v2 p2 hl2 hx2 hn2 =>
                      goFetch_covers f nf H0 fuel l2 v2 (d + 1) p2 hn2
                        (by have h1 := hchild l2 p2 hl2 hx2 hn2
                            have h2 := Hμ2 p2
                            omega)
                        (by omega))
                    _ l p hlmem.1 hlmem.2 hnl
                · exact expandStep_closure f nf
                    (fun l v => goFetch f nf fuel l v (d + 1))
                    (fun l v => goFetch_visited_ext f nf fuel l v (d + 1))
                    (extractLocsFromSitemap text)
                    (fun l2 v2 m2 hl2 hx2 hm2 hmv2 p2 he2 =>
                      ih l2 v2 (d + 1)
                        (fun n0' hn0' => hchild l2 n0' hl2 hx2 hn0')
                        (by omega) m2 hm2 hmv2 p2 he2)
                    _ m hm hm1 p he

theorem runRoots_visited_ext :
    ∀ (roots : List String) (v : List String),
      ∃ w, (runRoots f nf roots v).2 = v ++ w := by
  intro roots
  induction roots with
  | nil => intro v; exact ⟨[], by simp [runRoots]⟩
  | cons r rest ih =>
    intro v
    rw [runRoots]
    obtain ⟨w1, h1⟩ := fetchSitemapUrls_visited_ext f nf r v 0
    obtain ⟨w2, h2⟩ := ih (fetchSitemapUrls f nf r v 0).2
    refine ⟨w1 ++ w2, ?_⟩
    dsimp only
    rw [h2, h1, List.append_assoc]

theorem runRoots_covers (H0 : nf "" = none) :
    ∀ (roots : List String) (v : List String) (r n0 : String),
      r ∈ roots → nf r = some n0 → n0 ∈ (runRoots f nf roots v).2 := by
  intro roots
  induction roots with
  | nil => intro v r n0 h; simp at h
  | cons a rest ih =>
    intro v r n0 hmem hn0
    rw [runRoots]
    dsimp only
    rcases List.mem_cons.mp hmem with rfl | hmem
    · have hfirst : n0 ∈ (fetchSitemapUrls f nf r v 0).2 :=
        goFetch_covers f nf H0 7 r v 0 n0 hn0 (by omega) (by omega)
      obtain ⟨w, hw⟩ := runRoots_visited_ext f nf rest (fetchSitemapUrls f nf r v 0).2
      rw [hw]
      exact List.mem_append_left _ hfirst
    · exact ih _ r n0 hmem hn0

theorem runRoots_closure (μ : String → Nat) (H0 : nf "" = none)
    (Hμ1 : ∀ n m, edgeN f nf n m → μ n < μ m) (Hμ2 : ∀ n, μ n ≤ 6) :
    ∀ (roots : List String) (v : List String) (m : String),
      m ∈ (runRoots f nf roots v).2 → m ∉ v →
      ∀ p, edgeN f nf m p → p ∈ (runRoots f nf roots v).2 := by
  intro roots
  induction roots with
  | nil => intro v m hm hmv; exact absurd hm hmv
  | cons a rest ih =>
    intro v m hm hmv p he
    rw [runRoots] at hm ⊢
    dsimp only at hm ⊢
    by_cases hm1 : m ∈ (fetchSitemapUrls f nf a v 0).2
    · have hp : p ∈ (fetchSitemapUrls f nf a v 0).2 :=
        goFetch_closure f nf μ H0 Hμ1 Hμ2 7 a v 0
          (fun n0 _ => by omega) (by omega) m hm1 hmv p he
      obtain ⟨w, hw⟩ := runRoots_visited_ext f nf rest (fetchSitemapUrls f nf a v 0).2
      rw [hw]
      exact List.mem_append_left _ hp
    · exact ih _ m hm hm1 p he

theorem runRoots_complete :
    ∀ (roots : List String) (v : List String) (m : String),
      m ∈ (runRoots f nf roots v).2 → m ∉ v →
      ∀ x, x ∈ terminalsOf f m → x ∈ (runRoots f nf roots v).1 := by
  intro roots
  induction roots with
  | nil => intro v m hm hmv; exact absurd hm hmv
  | cons a rest ih =>
    intro v m hm hmv x ht
    rw [runRoots] at hm ⊢
    dsimp only at hm ⊢
    by_cases hm1 : m ∈ (fetchSitemapUrls f nf a v 0).2
    · exact List.mem_append_left _
        (goFetch_complete f nf 7 a v 0 m hm1 hmv x ht)
    · exact List.mem_append_right _ (ih _ m hm hm1 x ht)

end SitemapGraph

/-- Counterexample universe for C3: an eight-deep non-cyclic chain of nested
sitemaps whose innermost document holds the only terminal page. -/
def chainFetch : String → Option String := fun s =>
  if s = "https://e.com/s0.xml" then some "<loc>https://e.com/s1.xml</loc>"
  else if s = "https://e.com/s1.xml" then some "<loc>https://e.com/s2.xml</loc>"
  else if s = "https://e.com/s2.xml" then some "<loc>https://e.com/s3.xml</loc>"
  else if s = "https://e.com/s3.xml" then some "<loc>https://e.com/s4.xml</loc>"
  else if s = "https://e.com/s4.xml" then some "<loc>https://e.com/s5.xml</loc>"
  else if s = "https://e.com/s5.xml" then some "<loc>https://e.com/s6.xml</loc>"
  else if s = "https://e.com/s6.xml" then some "<loc>https://e.com/s7.xml</loc>"
  else if s = "https://e.com/s7.xml" then some "<loc>https://e.com/page</loc>"
  else none

/-- Counterexample to claim C3 as stated: in the eight-deep non-cyclic chain,
the page held by the innermost sitemap is a terminal location of a document
reachable from the root, yet the resolver returns the empty list — the
depth bound (depth ≤ 6) cuts the expansion short, so the result is NOT the
union of terminal locations over all non-cyclic nested sitemaps. -/
theorem claim_C3_counterexample :
    dedupFirst (runRoots chainFetch idNorm ["https://e.com/s0.xml"] []).1 = []
    ∧ RootReach chainFetch idNorm ["https://e.com/s0.xml"] "https://e.com/s7.xml"
    ∧ "https://e.com/page" ∈ terminalsOf chainFetch "https://e.com/s7.xml" := by
  refine ⟨by decide, ?_, by decide⟩
  refine ⟨"https://e.com/s0.xml", "https://e.com/s0.xml", by decide, by decide, by decide, ?_⟩
  have e01 : edgeN chainFetch idNorm "https://e.com/s0.xml" "https://e.com/s1.xml" :=
    ⟨"https://e.com/s1.xml", by decide, by decide⟩
  have e12 : edgeN chainFetch idNorm "https://e.com/s1.xml" "https://e.com/s2.xml" :=
    ⟨"https://e.com/s2.xml", by decide, by decide⟩
  have e23 : edgeN chainFetch idNorm "https://e.com/s2.xml" "https://e.com/s3.xml" :=
    ⟨"https://e.com/s3.xml", by decide, by decide⟩
  have e34 : edgeN chainFetch idNorm "https://e.com/s3.xml" "https://e.com/s4.xml" :=
    ⟨"https://e.com/s4.xml", by decide, by decide⟩
  have e45 : edgeN chainFetch idNorm "https://e.com/s4.xml" "https://e.com/s5.xml" :=
    ⟨"https://e.com/s5.xml", by decide, by decide⟩
  have e56 : edgeN chainFetch idNorm "https://e.com/s5.xml" "https://e.com/s6.xml" :=
    ⟨"https://e.com/s6.xml", by decide, by decide⟩
  have e67 : edgeN chainFetch idNorm "https://e.com/s6.xml" "https://e.com/s7.xml" :=
    ⟨"https://e.com/s7.xml", by decide, by decide⟩
  exact ReachFrom.tail (ReachFrom.tail (ReachFrom.tail (ReachFrom.tail
    (ReachFrom.tail (ReachFrom.tail (ReachFrom.tail ReachFrom.refl e01) e12) e23)
      e34) e45) e56) e67

/-- Claim C3 amended: for every sitemap universe whose nesting graph respects
the recursion bound — witnessed by a rank `μ` that increases strictly along
nesting edges and never exceeds 6, so every nesting chain stays within the
depth budget — the deduplicated location list the resolver accumulates from
its root sitemap URLs is exactly the union of the terminal location values
over all reachable sitemap documents, with no URL appearing twice even when
the same URL occurs in several nested documents. -/
theorem claim_C3 :
    ∀ (f nf : String → Option String) (μ : String → Nat) (roots : List String),
      nf "" = none →
      (∀ n m, edgeN f nf n m → μ n < μ m) →
      (∀ n, μ n ≤ 6) →
      (∀ x, x ∈ dedupFirst (runRoots f nf roots []).1 ↔
        ∃ m, RootReach f nf roots m ∧ x ∈ terminalsOf f m)
      ∧ (dedupFirst (runRoots f nf roots []).1).Nodup := by
  intro f nf μ roots H0 Hμ1 Hμ2
  constructor
  · intro x
    rw [mem_dedupFirst]
    constructor
    · intro hx
      obtain ⟨r, n0, hr, hn0, m, hrm, ht⟩ := runRoots_sound f nf roots [] x hx
      have hrne : r ≠ "" := by
        intro h
        rw [h, H0] at hn0
        cases hn0
      exact ⟨m, ⟨r, n0, hr, hrne, hn0, hrm⟩, ht⟩
    · rintro ⟨m, ⟨r, n0, hr, hrne, hn0, hrm⟩, ht⟩
      have hmem : m ∈ (runRoots f nf roots []).2 := by
        clear ht
        induction hrm with
        | refl => exact runRoots_covers f nf H0 roots [] r n0 hr hn0
        | tail hr2 he ih2 =>
          exact runRoots_closure f nf μ H0 Hμ1 Hμ2 roots [] _ ih2 (by simp) _ he
      exact runRoots_complete f nf roots [] m hmem (by simp) x ht
  · exact nodup_dedupFirst _

/-- Witness for the amended C3: a one-sitemap universe (no nesting edges at
all, so the constant rank 0 works) where the single page of the single
reachable document is resolved, exactly once. -/
theorem claim_C3_witness :
    "https://e.com/blog" ∈ dedupFirst
      (runRoots exFetch idNorm ["https://e.com/sitemap.xml"] []).1
    ∧ (dedupFirst (runRoots exFetch idNorm ["https://e.com/sitemap.xml"] []).1).Nodup := by
  have hedge : ∀ n m, edgeN exFetch idNorm n m →
      (fun _ => (0 : Nat)) n < (fun _ => (0 : Nat)) m := by
    rintro n m ⟨l, hl, -⟩
    exfalso
    unfold xmlLocsOf docLocs exFetch at hl
    by_cases hn : n = "https://e.com/sitemap.xml"
    · rw [if_pos hn] at hl
      dsimp only at hl
      have hempty :
          List.filter locIsXml (extractLocsFromSitemap "<loc>https://e.com/blog</loc>")
            = [] := by decide
      rw [hempty] at hl
      simp at hl
    · rw [if_neg hn] at hl
      simp at hl
  have h := claim_C3 exFetch idNorm (fun _ => 0) ["https://e.com/sitemap.xml"]
    rfl hedge (fun _ => Nat.zero_le 6)
  refine ⟨?_, h.2⟩
  refine (h.1 "https://e.com/blog").mpr ?_
  refine ⟨"https://e.com/sitemap.xml",
    ⟨"https://e.com/sitemap.xml", "https://e.com/sitemap.xml",
      by decide, by decide, by decide, ReachFrom.refl⟩, by decide⟩

end Newsletter
